import Mathlib

/-!
Verification of the movefile repository's template engine, grouping plugin
and copy engine against its natural-language specification.

The Python sources are shallowly embedded: strings become `List Char`
(wrapped into `String` only at the edges), Python regular-expression passes
become deterministic scanners (each regex used by the code is of a shape
whose match at a position is decided by maximal-munch character runs), and
the stateful copy engine becomes a pure function over an explicit disk
state together with a failure-injection schedule.

Sources embedded here:
  * `src/module/allocator.py` — `parse_template_variables`,
    `_resolve_template_variables`, `_clean_path_segments`,
    `update_template`, `_load_plugins_for_variables`,
    `_unload_plugins_for_variables`.
  * `src/module/file_manager.py` — `current_copying_instance.__init__`,
    `get_hash`, `__fastcopy`, `copy_initiator`.
  * `src/project_components/pyside6_plugins/manual_grouping.py` —
    `Strategy`, `StrategyGroup`, `manual_grouping` and the constraint
    machinery.
-/

set_option maxHeartbeats 1000000

namespace Movefile

/-- Build a `String` from an explicit character list (used to keep brace
characters out of string literals). -/
def strOf (l : List Char) : String := String.mk l

/-- Characters matched by the `\w` class of the Python regexes in
`allocator.py` (ASCII fragment: letters, digits, underscore). -/
def isWordChar (c : Char) : Bool := c.isAlpha || c.isDigit || c = '_'

/-- Decimal digit test, the `\d` class. -/
def isDigitChar (c : Char) : Bool := c.isDigit

/-- Numeric value of a decimal digit string (Python `int` on an all-digit
string, as produced by a `(\d+)` capture). -/
def digitsToNat (l : List Char) : Nat :=
  l.foldl (fun acc c => acc * 10 + (c.toNat - '0'.toNat)) 0

section ParseTemplateVariables

/-!  `Allocator.parse_template_variables` (allocator.py:749-759):

    pattern = r'\{([^}]+)\}'
    matches = re.findall(pattern, template)
    variables = set()
    for match in matches:
        var_name = match.split('[')[0]
        variables.add(var_name)
    return variables

`re.findall` scans left to right for non-overlapping matches.  At a `{`
the regex matches exactly when the maximal run of non-`}` characters that
follows is non-empty and is terminated by a `}`; the run is the capture.
-/

/-- Scanner equivalent of `re.findall(r'\{([^}]+)\}', template)`: the list
of captures, left to right.  The fuel argument only forces structural
recursion; every step consumes at least one character, so `l.length` fuel
is always enough (see `ptvScan`). -/
def ptvGo : Nat → List Char → List (List Char)
  | 0, _ => []
  | _ + 1, [] => []
  | f + 1, c :: cs =>
    if c = '{' then
      match cs.dropWhile (fun d => d ≠ '}') with
      | '}' :: rs =>
        let content := cs.takeWhile (fun d => d ≠ '}')
        if content.isEmpty then ptvGo f cs else content :: ptvGo f rs
      | _ => ptvGo f cs
    else ptvGo f cs

/-- All regex captures of the template scan. -/
def ptvScan (l : List Char) : List (List Char) := ptvGo l.length l

/-- `match.split('[')[0]`: everything before the first `[`. -/
def splitBracketHead (l : List Char) : List Char := l.takeWhile (fun d => d ≠ '[')

/-- `Allocator.parse_template_variables`: the set of names extracted from
a template. -/
def parse_template_variables (template : List Char) : Finset String :=
  ((ptvScan template).map (fun content => strOf (splitBracketHead content))).toFinset

/-- The template `{year:2024}` as a character list. -/
def tmplYearDefault : List Char :=
  ['{', 'y', 'e', 'a', 'r', ':', '2', '0', '2', '4', '}']

end ParseTemplateVariables

section Renderer

/-!  `Allocator._resolve_template_variables` (allocator.py:1297-1378).

The method applies four `re.sub` passes over the template, in this order:

  1. `\{(\w+)\[(\d+)\]:([^}]+)\}`  (array access with default),
  2. `\{(\w+)\[(\d+)\]\}`          (array access),
  3. `\{(\w+):([^}]+)\}`           (variable with default),
  4. `\{(\w+)\}`                   (plain variable),

then cleans the path (`_clean_path_segments`) and prepends the output
directory with `os.path.join` unless the result already starts with it.

Each of the four regexes is deterministic: a match can only start at a
`{`, and at a `{` the engine commits to the maximal runs of `\w`, `\d`
and `[^}]` characters (backtracking cannot help, because any shorter run
is followed by another character of the same class, never by the
delimiter the regex then requires).  The four shapes are mutually
exclusive at any given `{`.  `parseTok` below implements this
deterministic token parse; each pass accepts its own shape and leaves the
other shapes untouched.
-/

/-- Python values that can appear in the variable environment
(plugin contract: string, int, list, or `None`).  `repr` escaping of
quotes inside strings is not modelled (no claim depends on it). -/
inductive PyVal where
  | str (s : String)
  | int (n : Int)
  | list (l : List PyVal)
  | none
deriving Repr

mutual

/-- Python `str(v)`. -/
def pyStr : PyVal → String
  | .str s => s
  | .int n => toString n
  | .none => "None"
  | .list l => "[" ++ ", ".intercalate (pyReprList l) ++ "]"

/-- Python `repr(v)` for list elements (strings are quoted). -/
def pyReprList : List PyVal → List String
  | [] => []
  | .str s :: vs => ("'" ++ s ++ "'") :: pyReprList vs
  | v :: vs => pyStr v :: pyReprList vs

end

mutual

/-- Decidable equality for `PyVal` (the derive handler does not support
the nested `List PyVal` field). -/
def pyValDecEq : (a b : PyVal) → Decidable (a = b)
  | .str s, .str t =>
    match decEq s t with
    | isTrue h => isTrue (by rw [h])
    | isFalse h => isFalse (by intro hh; injection hh with h1; exact h h1)
  | .int m, .int n =>
    match decEq m n with
    | isTrue h => isTrue (by rw [h])
    | isFalse h => isFalse (by intro hh; injection hh with h1; exact h h1)
  | .none, .none => isTrue rfl
  | .list l, .list m =>
    match pyValListDecEq l m with
    | isTrue h => isTrue (by rw [h])
    | isFalse h => isFalse (by intro hh; injection hh with h1; exact h h1)
  | .str _, .int _ => isFalse (by intro hh; exact PyVal.noConfusion hh)
  | .str _, .list _ => isFalse (by intro hh; exact PyVal.noConfusion hh)
  | .str _, .none => isFalse (by intro hh; exact PyVal.noConfusion hh)
  | .int _, .str _ => isFalse (by intro hh; exact PyVal.noConfusion hh)
  | .int _, .list _ => isFalse (by intro hh; exact PyVal.noConfusion hh)
  | .int _, .none => isFalse (by intro hh; exact PyVal.noConfusion hh)
  | .list _, .str _ => isFalse (by intro hh; exact PyVal.noConfusion hh)
  | .list _, .int _ => isFalse (by intro hh; exact PyVal.noConfusion hh)
  | .list _, .none => isFalse (by intro hh; exact PyVal.noConfusion hh)
  | .none, .str _ => isFalse (by intro hh; exact PyVal.noConfusion hh)
  | .none, .int _ => isFalse (by intro hh; exact PyVal.noConfusion hh)
  | .none, .list _ => isFalse (by intro hh; exact PyVal.noConfusion hh)

/-- Decidable equality for lists of `PyVal`. -/
def pyValListDecEq : (l m : List PyVal) → Decidable (l = m)
  | [], [] => isTrue rfl
  | a :: l, b :: m =>
    match pyValDecEq a b with
    | isTrue h1 =>
      match pyValListDecEq l m with
      | isTrue h2 => isTrue (by rw [h1, h2])
      | isFalse h2 => isFalse (by intro hh; injection hh with _ hb; exact h2 hb)
    | isFalse h1 => isFalse (by intro hh; injection hh with ha _; exact h1 ha)
  | [], _ :: _ => isFalse (by intro hh; exact List.noConfusion hh)
  | _ :: _, [] => isFalse (by intro hh; exact List.noConfusion hh)

end

instance : DecidableEq PyVal := pyValDecEq

/-- Python truthiness of an environment value. -/
def truthy : PyVal → Bool
  | .str s => !(s = "")
  | .int n => !(n = 0)
  | .list l => !l.isEmpty
  | .none => false

/-- The variable environment (`variables: Dict[str, Any]`); an
association list with the first binding winning, as dict keys are
unique. -/
def Env : Type := List (String × PyVal)

/-- Dictionary lookup. -/
def envGet (env : Env) (name : String) : Option PyVal :=
  match env.find? (fun p => p.1 = name) with
  | Option.some p => Option.some p.2
  | Option.none => Option.none

/-- The four token shapes of the renderer's regexes.  Fields hold the
captured character runs: `n` the name (`\w+`), `ds` the index digits
(`\d+`), `d` the default text (`[^}]+`). -/
inductive Tok where
  | arrDef (n ds d : List Char)
  | arr (n ds : List Char)
  | withDef (n d : List Char)
  | plain (n : List Char)
deriving Repr

/-- Deterministic parse of a token at a `{`; the input is the character
list following the `{`.  Returns the token and the characters after its
closing `}`.  Exactly one of the four regex shapes can match at a given
`{`, and it matches iff `parseTok` returns that shape. -/
def parseDefault (n ds : List Char) (mk : List Char → List Char → List Char → Tok)
    (r : List Char) : Option (Tok × List Char) :=
  let d := r.takeWhile (fun c => c ≠ '}')
  if d.isEmpty then Option.none else
  match r.dropWhile (fun c => c ≠ '}') with
  | c :: rest => if c = '}' then Option.some (mk n ds d, rest) else Option.none
  | [] => Option.none

def parseTok (cs : List Char) : Option (Tok × List Char) :=
  let n := cs.takeWhile isWordChar
  if n.isEmpty then Option.none else
  match cs.dropWhile isWordChar with
  | c1 :: r1 =>
    if c1 = '[' then
      let ds := r1.takeWhile isDigitChar
      if ds.isEmpty then Option.none else
      match r1.dropWhile isDigitChar with
      | c2 :: rest2 =>
        if c2 = ']' then
          match rest2 with
          | c3 :: r3 =>
            if c3 = ':' then parseDefault n ds (fun a b c => .arrDef a b c) r3
            else if c3 = '}' then Option.some (.arr n ds, r3)
            else Option.none
          | [] => Option.none
        else Option.none
      | [] => Option.none
    else if c1 = ':' then parseDefault n [] (fun a _ c => .withDef a c) r1
    else if c1 = '}' then Option.some (.plain n, r1)
    else Option.none
  | [] => Option.none

/-- One `re.sub` pass: scan left to right; at a `{` that parses as a
token accepted by `sub`, emit the replacement and continue after the
token (replacements are not rescanned within the same pass, matching
`re.sub`'s non-overlapping semantics); otherwise keep the character.
Fuel only forces structural recursion (`l.length` is always enough). -/
def passGo (sub : Tok → Option String) : Nat → List Char → List Char
  | 0, l => l
  | _ + 1, [] => []
  | fu + 1, c :: cs =>
    if c = '{' then
      match parseTok cs with
      | Option.some (tok, rest) =>
        match sub tok with
        | Option.some repl => repl.data ++ passGo sub fu rest
        | Option.none => c :: passGo sub fu cs
      | Option.none => c :: passGo sub fu cs
    else c :: passGo sub fu cs

/-- One substitution pass over a character list. -/
def pass (sub : Tok → Option String) (l : List Char) : List Char :=
  passGo sub l.length l

/-- Pass 1, `replace_array_with_default` (allocator.py:1304-1318). -/
def sub1 (env : Env) : Tok → Option String
  | .arrDef n ds d =>
    let index := digitsToNat ds
    Option.some
      (match envGet env (strOf n) with
       | Option.some (.list L) =>
         if h : index < L.length then pyStr (L.get ⟨index, h⟩) else strOf d
       | Option.some _ => strOf d
       | Option.none => strOf d)
  | _ => Option.none

/-- Pass 2, `replace_array_access` (allocator.py:1323-1336). -/
def sub2 (env : Env) : Tok → Option String
  | .arr n ds =>
    let index := digitsToNat ds
    Option.some
      (match envGet env (strOf n) with
       | Option.some (.list L) =>
         if h : index < L.length then pyStr (L.get ⟨index, h⟩) else "unknown"
       | Option.some _ => "unknown"
       | Option.none => "unknown")
  | _ => Option.none

/-- Pass 3, `replace_with_default` (allocator.py:1341-1350). -/
def sub3 (env : Env) : Tok → Option String
  | .withDef n d =>
    Option.some
      (match envGet env (strOf n) with
       | Option.some v => if truthy v then pyStr v else strOf d
       | Option.none => strOf d)
  | _ => Option.none

/-- Pass 4, `replace_normal_variable` (allocator.py:1355-1369). -/
def sub4 (env : Env) : Tok → Option String
  | .plain n =>
    Option.some
      (match envGet env (strOf n) with
       | Option.some PyVal.none => ""
       | Option.some (.str "") => ""
       | Option.some (.list []) => ""
       | Option.some v => pyStr v
       | Option.none => strOf ('{' :: n ++ ['}']))
  | _ => Option.none

/-- Steps 1-4 of `_resolve_template_variables`: the four regex passes in
source order. -/
def substitutePasses (env : Env) (template : List Char) : List Char :=
  pass (sub4 env) (pass (sub3 env) (pass (sub2 env) (pass (sub1 env) template)))

/-- Modelled from the spec (§4.4): the substitution table applied to one
token, used by the single-pass reference renderer.  `{name[i]:default}`:
element i stringified if in range, else the default; `{name[i]}`: element
i or the literal `unknown`; `{name:default}`: the value if present and
truthy, else the default; `{name}`: present null/empty-string/empty-list
gives the empty string, other present values stringify, absent tokens are
preserved literally. -/
def subSpecTable (env : Env) : Tok → Option String
  | .arrDef n ds d =>
    Option.some
      (match envGet env (strOf n) with
       | Option.some (.list L) =>
         if h : digitsToNat ds < L.length then pyStr (L.get ⟨digitsToNat ds, h⟩)
         else strOf d
       | _ => strOf d)
  | .arr n ds =>
    Option.some
      (match envGet env (strOf n) with
       | Option.some (.list L) =>
         if h : digitsToNat ds < L.length then pyStr (L.get ⟨digitsToNat ds, h⟩)
         else "unknown"
       | _ => "unknown")
  | .withDef n d =>
    Option.some
      (match envGet env (strOf n) with
       | Option.some v => if truthy v then pyStr v else strOf d
       | Option.none => strOf d)
  | .plain n =>
    Option.some
      (match envGet env (strOf n) with
       | Option.some PyVal.none => ""
       | Option.some (.str "") => ""
       | Option.some (.list []) => ""
       | Option.some v => pyStr v
       | Option.none => strOf ('{' :: n ++ ['}']))

/-- Modelled from the spec (§4.4): substitution "applied in one
left-to-right pass (not four passes; longest-match at each `{`)" — a
single scan in which substituted text is never rescanned. -/
def singlePassSpec (env : Env) (template : List Char) : List Char :=
  pass (subSpecTable env) template

theorem length_dropWhile_le (p : Char → Bool) (l : List Char) :
    (l.dropWhile p).length ≤ l.length := by
  induction l with
  | nil => simp
  | cons c cs ih =>
    rw [List.dropWhile_cons]
    split
    · exact Nat.le_trans ih (by simp)
    · simp

theorem parseDefault_length {n ds r : List Char}
    {mk : List Char → List Char → List Char → Tok} {t : Tok} {rest : List Char}
    (h : parseDefault n ds mk r = Option.some (t, rest)) :
    rest.length < r.length := by
  simp only [parseDefault] at h
  by_cases hd : (r.takeWhile (fun c => c ≠ '}')).isEmpty
  · rw [if_pos hd] at h; exact absurd h (by simp)
  · rw [if_neg hd] at h
    have hle : (r.dropWhile (fun c => c ≠ '}')).length ≤ r.length :=
      length_dropWhile_le _ _
    revert h
    cases hdrop : r.dropWhile (fun c => c ≠ '}') with
    | nil => intro h; exact absurd h (by simp)
    | cons c rest' =>
      rw [hdrop] at hle
      simp only [List.length_cons] at hle
      intro h
      dsimp only at h
      by_cases hc : c = '}'
      · rw [if_pos hc] at h
        simp only [Option.some.injEq, Prod.mk.injEq] at h
        have : rest' = rest := h.2
        subst this
        omega
      · rw [if_neg hc] at h; exact absurd h (by simp)

theorem parseTok_length {cs : List Char} {t : Tok} {rest : List Char}
    (h : parseTok cs = Option.some (t, rest)) : rest.length < cs.length := by
  simp only [parseTok] at h
  by_cases hn : (cs.takeWhile isWordChar).isEmpty
  · rw [if_pos hn] at h; exact absurd h (by simp)
  · rw [if_neg hn] at h
    have hlt : (cs.dropWhile isWordChar).length < cs.length := by
      have hsum := congrArg List.length (cs.takeWhile_append_dropWhile
        (p := isWordChar))
      rw [List.length_append] at hsum
      have : (cs.takeWhile isWordChar).length ≠ 0 := by
        intro h0
        exact hn (List.isEmpty_iff.mpr (List.length_eq_zero.mp h0))
      omega
    revert h
    cases hdw : cs.dropWhile isWordChar with
    | nil => intro h; exact absurd h (by simp)
    | cons c1 r1 =>
      rw [hdw] at hlt
      simp only [List.length_cons] at hlt
      intro h
      dsimp only at h
      by_cases hc1 : c1 = '['
      · rw [if_pos hc1] at h
        by_cases hds : (r1.takeWhile isDigitChar).isEmpty
        · rw [if_pos hds] at h; exact absurd h (by simp)
        · rw [if_neg hds] at h
          have hle2 : (r1.dropWhile isDigitChar).length ≤ r1.length :=
            length_dropWhile_le _ _
          revert h
          cases hdd : r1.dropWhile isDigitChar with
          | nil => intro h; exact absurd h (by simp)
          | cons c2 rest2 =>
            rw [hdd] at hle2
            simp only [List.length_cons] at hle2
            intro h
            dsimp only at h
            by_cases hc2 : c2 = ']'
            · rw [if_pos hc2] at h
              revert h
              cases rest2 with
              | nil => intro h; exact absurd h (by simp)
              | cons c3 r3 =>
                simp only [List.length_cons] at hle2
                intro h
                dsimp only at h
                by_cases hc3 : c3 = ':'
                · rw [if_pos hc3] at h
                  have := parseDefault_length h
                  omega
                · rw [if_neg hc3] at h
                  by_cases hc3' : c3 = '}'
                  · rw [if_pos hc3'] at h
                    simp only [Option.some.injEq, Prod.mk.injEq] at h
                    have : r3 = rest := h.2
                    subst this
                    omega
                  · rw [if_neg hc3'] at h; exact absurd h (by simp)
            · rw [if_neg hc2] at h; exact absurd h (by simp)
      · rw [if_neg hc1] at h
        by_cases hc1' : c1 = ':'
        · rw [if_pos hc1'] at h
          have := parseDefault_length h
          omega
        · rw [if_neg hc1'] at h
          by_cases hc1'' : c1 = '}'
          · rw [if_pos hc1''] at h
            simp only [Option.some.injEq, Prod.mk.injEq] at h
            have : r1 = rest := h.2
            subst this
            omega
          · rw [if_neg hc1''] at h; exact absurd h (by simp)

/-- Fuel irrelevance for the pass scanner: any fuel at least the input
length gives the same result. -/
theorem passGo_fuel (sub : Tok → Option String) :
    ∀ fu1 : Nat, ∀ fu2 : Nat, ∀ l : List Char,
      l.length ≤ fu1 → l.length ≤ fu2 → passGo sub fu1 l = passGo sub fu2 l := by
  intro fu1
  induction fu1 with
  | zero =>
    intro fu2 l h1 _
    have : l = [] := List.length_eq_zero.mp (Nat.le_zero.mp h1)
    subst this
    cases fu2 <;> rfl
  | succ f1 ih =>
    intro fu2 l h1 h2
    cases l with
    | nil => cases fu2 <;> rfl
    | cons c cs =>
      cases fu2 with
      | zero => simp at h2
      | succ f2 =>
        simp only [List.length_cons, Nat.succ_le_succ_iff] at h1 h2
        show passGo sub (f1 + 1) (c :: cs) = passGo sub (f2 + 1) (c :: cs)
        simp only [passGo]
        by_cases hc : c = '{'
        · rw [if_pos hc, if_pos hc]
          cases hp : parseTok cs with
          | none =>
            dsimp only
            rw [ih f2 cs h1 h2]
          | some pr =>
            obtain ⟨t, rest⟩ := pr
            have hrl := parseTok_length hp
            dsimp only
            cases hs : sub t with
            | none =>
              dsimp only
              rw [ih f2 cs h1 h2]
            | some repl =>
              dsimp only
              rw [ih f2 rest (by omega) (by omega)]
        · rw [if_neg hc, if_neg hc, ih f2 cs h1 h2]

theorem passGo_eq_pass (sub : Tok → Option String) {fu : Nat} {l : List Char}
    (h : l.length ≤ fu) : passGo sub fu l = pass sub l :=
  passGo_fuel sub fu l.length l h (Nat.le_refl _)

theorem pass_nil (sub : Tok → Option String) : pass sub [] = [] := rfl

theorem pass_cons_of_ne (sub : Tok → Option String) {c : Char}
    (hc : c ≠ '{') (l : List Char) :
    pass sub (c :: l) = c :: pass sub l := by
  show passGo sub (l.length + 1) (c :: l) = _
  simp only [passGo, if_neg hc]
  rfl

theorem pass_lit_append (sub : Tok → Option String) {s : List Char}
    (hs : ∀ c ∈ s, c ≠ '{') (l : List Char) :
    pass sub (s ++ l) = s ++ pass sub l := by
  induction s with
  | nil => rfl
  | cons c s' ih =>
    rw [List.cons_append,
      pass_cons_of_ne sub (hs c (List.mem_cons_self c s')) (s' ++ l),
      ih (fun d hd => hs d (List.mem_cons_of_mem c hd))]
    rfl

theorem pass_of_nobrace (sub : Tok → Option String) {s : List Char}
    (hs : ∀ c ∈ s, c ≠ '{') : pass sub s = s := by
  have := pass_lit_append sub hs []
  simpa [pass_nil] using this

theorem pass_brace_cons (sub : Tok → Option String) (l : List Char) :
    pass sub ('{' :: l) =
      match parseTok l with
      | Option.some (t, rest) =>
        match sub t with
        | Option.some repl => repl.data ++ pass sub rest
        | Option.none => '{' :: pass sub l
      | Option.none => '{' :: pass sub l := by
  show passGo sub (l.length + 1) ('{' :: l) = _
  simp only [passGo, if_pos]
  cases hp : parseTok l with
  | none => rfl
  | some pr =>
    obtain ⟨t, rest⟩ := pr
    dsimp only
    cases hs : sub t with
    | none => rfl
    | some repl =>
      have := parseTok_length hp
      rw [passGo_eq_pass sub (by omega)]

/-- A non-empty run of characters all satisfying `p`. -/
def runB (p : Char → Bool) (l : List Char) : Bool := !l.isEmpty && l.all p

/-- Well-formed token per the template grammar (§4.2): non-empty word
name, non-empty digit index, non-empty default without `}`. -/
def wfTokB : Tok → Bool
  | .arrDef n ds d =>
    runB isWordChar n && runB isDigitChar ds && runB (fun c => c ≠ '}') d
  | .arr n ds => runB isWordChar n && runB isDigitChar ds
  | .withDef n d => runB isWordChar n && runB (fun c => c ≠ '}') d
  | .plain n => runB isWordChar n

/-- The default text of a token contains no `{` (tokens without a default
satisfy this vacuously). -/
def defNoBraceB : Tok → Bool
  | .arrDef _ _ d => d.all (fun c => c ≠ '{')
  | .withDef _ d => d.all (fun c => c ≠ '{')
  | _ => true

/-- The source text of a token after its opening `{`. -/
def tokBody : Tok → List Char
  | .arrDef n ds d => n ++ '[' :: (ds ++ ']' :: ':' :: (d ++ ['}']))
  | .arr n ds => n ++ '[' :: (ds ++ [']', '}'])
  | .withDef n d => n ++ ':' :: (d ++ ['}'])
  | .plain n => n ++ ['}']

/-- The full source text of a token. -/
def tokTxt (t : Tok) : List Char := '{' :: tokBody t

theorem run_split {p : Char → Bool} {n : List Char} (_hne : n.isEmpty = false)
    (hall : n.all p = true) {c : Char} (hc : p c = false) (l : List Char) :
    (n ++ c :: l).takeWhile p = n ∧ (n ++ c :: l).dropWhile p = c :: l := by
  have hall' : ∀ d ∈ n, p d = true := List.all_eq_true.mp hall
  constructor
  · rw [List.takeWhile_append_of_pos hall', List.takeWhile_cons, if_neg (by simp [hc])]
    simp
  · rw [List.dropWhile_append_of_pos hall', List.dropWhile_cons, if_neg (by simp [hc])]

theorem parseTok_tokBody {t : Tok} (h : wfTokB t = true) (rest : List Char) :
    parseTok (tokBody t ++ rest) = Option.some (t, rest) := by
  cases t with
  | arrDef n ds d =>
    simp only [wfTokB, Bool.and_eq_true, runB, Bool.not_eq_true'] at h
    obtain ⟨⟨⟨hn1, hn2⟩, hds1, hds2⟩, hd1, hd2⟩ := h
    have hw := run_split hn1 hn2 (c := '[') (by decide)
      (ds ++ ']' :: ':' :: (d ++ '}' :: rest))
    have hdig := run_split hds1 hds2 (c := ']') (by decide)
      (':' :: (d ++ '}' :: rest))
    have hdef := run_split hd1 hd2 (c := '}') (by decide) rest
    have hdef1 : List.takeWhile (fun c => !decide (c = '}')) (d ++ '}' :: rest) = d := by
      simpa using hdef.1
    have hdef2 : List.dropWhile (fun c => !decide (c = '}')) (d ++ '}' :: rest) =
        '}' :: rest := by
      simpa using hdef.2
    have hassoc : tokBody (Tok.arrDef n ds d) ++ rest =
        n ++ '[' :: (ds ++ ']' :: ':' :: (d ++ '}' :: rest)) := by
      simp [tokBody]
    rw [hassoc]
    simp [parseTok, parseDefault, hw.1, hw.2, hdig.1, hdig.2, hdef1, hdef2,
      hn1, hds1, hd1]
  | arr n ds =>
    simp only [wfTokB, Bool.and_eq_true, runB, Bool.not_eq_true'] at h
    obtain ⟨⟨hn1, hn2⟩, hds1, hds2⟩ := h
    have hw := run_split hn1 hn2 (c := '[') (by decide) (ds ++ ']' :: '}' :: rest)
    have hdig := run_split hds1 hds2 (c := ']') (by decide) ('}' :: rest)
    have hassoc : tokBody (Tok.arr n ds) ++ rest =
        n ++ '[' :: (ds ++ ']' :: '}' :: rest) := by
      simp [tokBody]
    rw [hassoc]
    simp [parseTok, hw.1, hw.2, hdig.1, hdig.2, hn1, hds1]
  | withDef n d =>
    simp only [wfTokB, Bool.and_eq_true, runB, Bool.not_eq_true'] at h
    obtain ⟨⟨hn1, hn2⟩, hd1, hd2⟩ := h
    have hw := run_split hn1 hn2 (c := ':') (by decide) (d ++ '}' :: rest)
    have hdef := run_split hd1 hd2 (c := '}') (by decide) rest
    have hdef1 : List.takeWhile (fun c => !decide (c = '}')) (d ++ '}' :: rest) = d := by
      simpa using hdef.1
    have hdef2 : List.dropWhile (fun c => !decide (c = '}')) (d ++ '}' :: rest) =
        '}' :: rest := by
      simpa using hdef.2
    have hassoc : tokBody (Tok.withDef n d) ++ rest =
        n ++ ':' :: (d ++ '}' :: rest) := by
      simp [tokBody]
    rw [hassoc]
    simp [parseTok, parseDefault, hw.1, hw.2, hdef1, hdef2, hn1, hd1]
  | plain n =>
    simp only [wfTokB, runB, Bool.and_eq_true, Bool.not_eq_true'] at h
    obtain ⟨hn1, hn2⟩ := h
    have hw := run_split hn1 hn2 (c := '}') (by decide) rest
    have hassoc : tokBody (Tok.plain n) ++ rest = n ++ '}' :: rest := by
      simp [tokBody]
    rw [hassoc]
    simp [parseTok, hw.1, hw.2, hn1]

theorem wordChar_ne_brace {c : Char} (h : isWordChar c = true) : c ≠ '{' := by
  intro hc
  subst hc
  exact absurd h (by decide)

theorem digitChar_ne_brace {c : Char} (h : isDigitChar c = true) : c ≠ '{' := by
  intro hc
  subst hc
  exact absurd h (by decide)

/-- A well-formed token whose default contains no `{` has a body with no
`{` (so a pass that does not substitute it neither consumes nor alters
any of its characters, nor starts a match inside it). -/
theorem tokBody_no_brace {t : Tok} (hwf : wfTokB t = true)
    (hnb : defNoBraceB t = true) : ∀ c ∈ tokBody t, c ≠ '{' := by
  cases t with
  | arrDef n ds d =>
    simp only [wfTokB, Bool.and_eq_true, runB, Bool.not_eq_true'] at hwf
    obtain ⟨⟨⟨_, hn2⟩, _, hds2⟩, _, _⟩ := hwf
    simp only [defNoBraceB, List.all_eq_true, decide_eq_true_eq] at hnb
    intro c hc
    simp [tokBody] at hc
    rcases hc with h | rfl | h | rfl | rfl | h | rfl
    · exact wordChar_ne_brace (List.all_eq_true.mp hn2 c h)
    · decide
    · exact digitChar_ne_brace (List.all_eq_true.mp hds2 c h)
    · decide
    · decide
    · exact hnb c h
    · decide
  | arr n ds =>
    simp only [wfTokB, Bool.and_eq_true, runB, Bool.not_eq_true'] at hwf
    obtain ⟨⟨_, hn2⟩, _, hds2⟩ := hwf
    intro c hc
    simp [tokBody] at hc
    rcases hc with h | rfl | h | rfl | rfl
    · exact wordChar_ne_brace (List.all_eq_true.mp hn2 c h)
    · decide
    · exact digitChar_ne_brace (List.all_eq_true.mp hds2 c h)
    · decide
    · decide
  | withDef n d =>
    simp only [wfTokB, Bool.and_eq_true, runB, Bool.not_eq_true'] at hwf
    obtain ⟨⟨_, hn2⟩, _, _⟩ := hwf
    simp only [defNoBraceB, List.all_eq_true, decide_eq_true_eq] at hnb
    intro c hc
    simp [tokBody] at hc
    rcases hc with h | rfl | h | rfl
    · exact wordChar_ne_brace (List.all_eq_true.mp hn2 c h)
    · decide
    · exact hnb c h
    · decide
  | plain n =>
    simp only [wfTokB, runB, Bool.and_eq_true, Bool.not_eq_true'] at hwf
    obtain ⟨_, hn2⟩ := hwf
    intro c hc
    simp [tokBody] at hc
    rcases hc with h | rfl
    · exact wordChar_ne_brace (List.all_eq_true.mp hn2 c h)
    · decide

/-- Scanning a well-formed token whose shape the pass substitutes. -/
theorem pass_tok_subst (sub : Tok → Option String) {t : Tok} {repl : String}
    (hwf : wfTokB t = true) (hsub : sub t = Option.some repl) (rest : List Char) :
    pass sub (tokTxt t ++ rest) = repl.data ++ pass sub rest := by
  show pass sub ('{' :: (tokBody t ++ rest)) = _
  rw [pass_brace_cons, parseTok_tokBody hwf rest]
  dsimp only
  rw [hsub]

/-- Scanning a well-formed token whose shape the pass does not
substitute: the token text is kept verbatim. -/
theorem pass_tok_keep (sub : Tok → Option String) {t : Tok}
    (hwf : wfTokB t = true) (hnb : defNoBraceB t = true)
    (hsub : sub t = Option.none) (rest : List Char) :
    pass sub (tokTxt t ++ rest) = tokTxt t ++ pass sub rest := by
  show pass sub ('{' :: (tokBody t ++ rest)) = '{' :: tokBody t ++ pass sub rest
  rw [pass_brace_cons, parseTok_tokBody hwf rest]
  dsimp only
  rw [hsub]
  dsimp only
  rw [pass_lit_append sub (tokBody_no_brace hwf hnb) rest]
  rfl

/-- A structured template: literal runs and tokens.  `itemsTxt` renders
it to the raw template string the Python code receives. -/
inductive Item where
  | lit (s : List Char)
  | tok (t : Tok)

/-- Source text of one item. -/
def itemTxt : Item → List Char
  | .lit s => s
  | .tok t => tokTxt t

/-- Source text of a structured template. -/
def itemsTxt (items : List Item) : List Char := (items.map itemTxt).flatten

/-- Well-formed item: literal text without `{`, or a grammar-conforming
token whose default contains no `{`. -/
def wfItemB : Item → Bool
  | .lit s => s.all (fun c => c ≠ '{')
  | .tok t => wfTokB t && defNoBraceB t

/-- The effect of one pass on one item. -/
def applyItem (sub : Tok → Option String) : Item → Item
  | .lit s => .lit s
  | .tok t =>
    match sub t with
    | Option.some r => .lit r.data
    | Option.none => .tok t

theorem itemsTxt_cons (i : Item) (items : List Item) :
    itemsTxt (i :: items) = itemTxt i ++ itemsTxt items := rfl

/-- One pass over a well-formed structured template substitutes exactly
the tokens its table accepts and leaves everything else verbatim. -/
theorem pass_items (sub : Tok → Option String) :
    ∀ items : List Item, (∀ i ∈ items, wfItemB i = true) →
      pass sub (itemsTxt items) = itemsTxt (items.map (applyItem sub)) := by
  intro items
  induction items with
  | nil => intro _; rfl
  | cons i rest ih =>
    intro h
    have hi := h i (List.mem_cons_self i rest)
    have hrest := fun j hj => h j (List.mem_cons_of_mem i hj)
    rw [itemsTxt_cons, List.map_cons, itemsTxt_cons]
    cases i with
    | lit s =>
      simp only [wfItemB, List.all_eq_true, decide_eq_true_eq] at hi
      rw [show itemTxt (Item.lit s) = s from rfl,
        pass_lit_append sub hi, ih hrest]
      rfl
    | tok t =>
      simp only [wfItemB, Bool.and_eq_true] at hi
      cases hs : sub t with
      | some r =>
        rw [show itemTxt (Item.tok t) = tokTxt t from rfl,
          pass_tok_subst sub hi.1 hs, ih hrest]
        simp [applyItem, hs, itemTxt]
      | none =>
        rw [show itemTxt (Item.tok t) = tokTxt t from rfl,
          pass_tok_keep sub hi.1 hi.2 hs, ih hrest]
        simp [applyItem, hs, itemTxt]

/-- Brace-freedom of an environment value as substituted text: the
stringified value and, for lists, each stringified element. -/
def valOkB : PyVal → Bool
  | .list L =>
    (pyStr (.list L)).data.all (fun c => c ≠ '{') &&
      L.all (fun v => (pyStr v).data.all (fun c => c ≠ '{'))
  | v => (pyStr v).data.all (fun c => c ≠ '{')

/-- Every environment value is brace-free as substituted text. -/
def envOkB (env : Env) : Bool := env.all (fun p => valOkB p.2)

theorem envGet_valOk {env : Env} (henv : envOkB env = true) {nm : String}
    {v : PyVal} (h : envGet env nm = Option.some v) : valOkB v = true := by
  unfold envGet at h
  cases hf : env.find? (fun p => p.1 = nm) with
  | none => rw [hf] at h; exact absurd h (by simp)
  | some p =>
    rw [hf] at h
    simp only [Option.some.injEq] at h
    subst h
    have hmem := List.mem_of_find?_eq_some hf
    exact List.all_eq_true.mp henv p hmem

theorem valOk_pyStr {v : PyVal} (h : valOkB v = true) :
    ∀ c ∈ (pyStr v).data, c ≠ '{' := by
  cases v with
  | list L =>
    simp only [valOkB, Bool.and_eq_true] at h
    exact fun c hc => (List.all_eq_true.mp h.1 c hc :
      (decide (c ≠ '{')) = true) |> of_decide_eq_true
  | str s => exact fun c hc => of_decide_eq_true (List.all_eq_true.mp h c hc)
  | int n => exact fun c hc => of_decide_eq_true (List.all_eq_true.mp h c hc)
  | none => exact fun c hc => of_decide_eq_true (List.all_eq_true.mp h c hc)

theorem valOk_elem {L : List PyVal} (h : valOkB (.list L) = true) {v : PyVal}
    (hv : v ∈ L) : ∀ c ∈ (pyStr v).data, c ≠ '{' := by
  simp only [valOkB, Bool.and_eq_true] at h
  exact fun c hc => of_decide_eq_true
    (List.all_eq_true.mp (List.all_eq_true.mp h.2 v hv) c hc)

theorem sub1_out {env : Env} (henv : envOkB env = true) {t : Tok}
    (hnb : defNoBraceB t = true) {r : String}
    (hr : sub1 env t = Option.some r) : ∀ c ∈ r.data, c ≠ '{' := by
  cases t with
  | arrDef n ds d =>
    simp only [defNoBraceB, List.all_eq_true, decide_eq_true_eq] at hnb
    simp only [sub1, Option.some.injEq] at hr
    subst hr
    cases hv : envGet env (strOf n) with
    | none => simpa [hv] using hnb
    | some v =>
      cases v with
      | list L =>
        simp only [hv]
        split
        · exact valOk_elem (envGet_valOk henv hv) (List.get_mem L _ _)
        · simpa using hnb
      | str s => simpa [hv] using hnb
      | int m => simpa [hv] using hnb
      | none => simpa [hv] using hnb
  | arr n ds => exact absurd hr (by simp [sub1])
  | withDef n d => exact absurd hr (by simp [sub1])
  | plain n => exact absurd hr (by simp [sub1])

theorem sub2_out {env : Env} (henv : envOkB env = true) {t : Tok}
    (_ : defNoBraceB t = true) {r : String}
    (hr : sub2 env t = Option.some r) : ∀ c ∈ r.data, c ≠ '{' := by
  cases t with
  | arr n ds =>
    simp only [sub2, Option.some.injEq] at hr
    subst hr
    cases hv : envGet env (strOf n) with
    | none => simp [hv]
    | some v =>
      cases v with
      | list L =>
        simp only [hv]
        split
        · exact valOk_elem (envGet_valOk henv hv) (List.get_mem L _ _)
        · decide
      | str s => simp [hv]
      | int m => simp [hv]
      | none => simp [hv]
  | arrDef n ds d => exact absurd hr (by simp [sub2])
  | withDef n d => exact absurd hr (by simp [sub2])
  | plain n => exact absurd hr (by simp [sub2])

theorem sub3_out {env : Env} (henv : envOkB env = true) {t : Tok}
    (hnb : defNoBraceB t = true) {r : String}
    (hr : sub3 env t = Option.some r) : ∀ c ∈ r.data, c ≠ '{' := by
  cases t with
  | withDef n d =>
    simp only [defNoBraceB, List.all_eq_true, decide_eq_true_eq] at hnb
    simp only [sub3, Option.some.injEq] at hr
    subst hr
    cases hv : envGet env (strOf n) with
    | none => simpa [hv] using hnb
    | some v =>
      simp only [hv]
      split
      · exact valOk_pyStr (envGet_valOk henv hv)
      · simpa using hnb
  | arrDef n ds d => exact absurd hr (by simp [sub3])
  | arr n ds => exact absurd hr (by simp [sub3])
  | plain n => exact absurd hr (by simp [sub3])

theorem wf_map_apply {sub : Tok → Option String}
    (hout : ∀ t r, defNoBraceB t = true → sub t = Option.some r →
      ∀ c ∈ r.data, c ≠ '{')
    {items : List Item} (h : ∀ i ∈ items, wfItemB i = true) :
    ∀ i ∈ items.map (applyItem sub), wfItemB i = true := by
  intro i hi
  rcases List.mem_map.mp hi with ⟨i0, hi0, rfl⟩
  have hwf := h i0 hi0
  cases i0 with
  | lit s => exact hwf
  | tok t =>
    simp only [wfItemB, Bool.and_eq_true] at hwf
    cases hs : sub t with
    | some r =>
      simp only [applyItem, hs, wfItemB, List.all_eq_true, decide_eq_true_eq]
      exact hout t r hwf.2 hs
    | none =>
      simp only [applyItem, hs, wfItemB, Bool.and_eq_true]
      exact hwf

theorem sub1_eq_spec (env : Env) (n ds d : List Char) :
    sub1 env (.arrDef n ds d) = subSpecTable env (.arrDef n ds d) := by
  simp only [sub1, subSpecTable]
  cases envGet env (strOf n) with
  | none => rfl
  | some v => cases v <;> rfl

theorem sub2_eq_spec (env : Env) (n ds : List Char) :
    sub2 env (.arr n ds) = subSpecTable env (.arr n ds) := by
  simp only [sub2, subSpecTable]
  cases envGet env (strOf n) with
  | none => rfl
  | some v => cases v <;> rfl

theorem sub3_eq_spec (env : Env) (n d : List Char) :
    sub3 env (.withDef n d) = subSpecTable env (.withDef n d) := rfl

theorem sub4_eq_spec (env : Env) (n : List Char) :
    sub4 env (.plain n) = subSpecTable env (.plain n) := rfl

theorem applyItem_chain (env : Env) (i : Item) :
    applyItem (sub4 env) (applyItem (sub3 env) (applyItem (sub2 env)
      (applyItem (sub1 env) i))) = applyItem (subSpecTable env) i := by
  cases i with
  | lit s => rfl
  | tok t =>
    cases t with
    | arrDef n ds d =>
      rw [show applyItem (sub1 env) (Item.tok (Tok.arrDef n ds d)) =
        applyItem (subSpecTable env) (Item.tok (Tok.arrDef n ds d)) from by
          simp only [applyItem, sub1_eq_spec]]
      cases hs : subSpecTable env (.arrDef n ds d) with
      | none => exact absurd hs (by simp [subSpecTable])
      | some r => simp [applyItem, hs]
    | arr n ds =>
      rw [show applyItem (sub1 env) (Item.tok (Tok.arr n ds)) =
        Item.tok (Tok.arr n ds) from by simp [applyItem, sub1]]
      rw [show applyItem (sub2 env) (Item.tok (Tok.arr n ds)) =
        applyItem (subSpecTable env) (Item.tok (Tok.arr n ds)) from by
          simp only [applyItem, sub2_eq_spec]]
      cases hs : subSpecTable env (.arr n ds) with
      | none => exact absurd hs (by simp [subSpecTable])
      | some r => simp [applyItem, hs]
    | withDef n d =>
      rw [show applyItem (sub1 env) (Item.tok (Tok.withDef n d)) =
        Item.tok (Tok.withDef n d) from by simp [applyItem, sub1]]
      rw [show applyItem (sub2 env) (Item.tok (Tok.withDef n d)) =
        Item.tok (Tok.withDef n d) from by simp [applyItem, sub2]]
      rw [show applyItem (sub3 env) (Item.tok (Tok.withDef n d)) =
        applyItem (subSpecTable env) (Item.tok (Tok.withDef n d)) from by
          simp only [applyItem, sub3_eq_spec]]
      cases hs : subSpecTable env (.withDef n d) with
      | none => exact absurd hs (by simp [subSpecTable])
      | some r => simp [applyItem, hs]
    | plain n =>
      rw [show applyItem (sub1 env) (Item.tok (Tok.plain n)) =
        Item.tok (Tok.plain n) from by simp [applyItem, sub1]]
      rw [show applyItem (sub2 env) (Item.tok (Tok.plain n)) =
        Item.tok (Tok.plain n) from by simp [applyItem, sub2]]
      rw [show applyItem (sub3 env) (Item.tok (Tok.plain n)) =
        Item.tok (Tok.plain n) from by simp [applyItem, sub3]]
      simp only [applyItem, sub4_eq_spec]

/-- Full four-pass pipeline on a single token substituted by pass 1,
whose replacement is brace-free: later passes leave it unchanged. -/
theorem quad_first_subst (env : Env) {t : Tok} (hwf : wfTokB t = true)
    {r : String} (hs : sub1 env t = Option.some r)
    (hr : ∀ c ∈ r.data, c ≠ '{') :
    substitutePasses env (tokTxt t) = r.data := by
  have h1 := pass_tok_subst (sub1 env) hwf hs []
  rw [List.append_nil, pass_nil, List.append_nil] at h1
  unfold substitutePasses
  rw [h1, pass_of_nobrace _ hr, pass_of_nobrace _ hr, pass_of_nobrace _ hr]

/-- Full four-pass pipeline on a single token left alone by pass 1 and
substituted by pass 2, with a brace-free replacement. -/
theorem quad_second_subst (env : Env) {t : Tok} (hwf : wfTokB t = true)
    (hnb : defNoBraceB t = true) (h1 : sub1 env t = Option.none)
    {r : String} (hs : sub2 env t = Option.some r)
    (hr : ∀ c ∈ r.data, c ≠ '{') :
    substitutePasses env (tokTxt t) = r.data := by
  have hk := pass_tok_keep (sub1 env) hwf hnb h1 []
  rw [List.append_nil, pass_nil, List.append_nil] at hk
  have h2 := pass_tok_subst (sub2 env) hwf hs []
  rw [List.append_nil, pass_nil, List.append_nil] at h2
  unfold substitutePasses
  rw [hk, h2, pass_of_nobrace _ hr, pass_of_nobrace _ hr]

end Renderer

section PathHygiene

/-!  `Allocator._clean_path_segments` (allocator.py:1380-1401) and the
final two steps of `_resolve_template_variables` (allocator.py:1371-1378):

    result = self._clean_path_segments(result)
    if not result.startswith(self.__dest_dir):
        result = os.path.join(self.__dest_dir, result)
-/

/-- Python whitespace test used by `str.strip()` (ASCII fragment). -/
def isSpaceChar (c : Char) : Bool := c.isWhitespace

/-- Python `s.strip()`. -/
def trimChars (l : List Char) : List Char :=
  ((l.dropWhile isSpaceChar).reverse.dropWhile isSpaceChar).reverse

/-- Python `path.split('/')` (note `"".split('/') == [""]`). -/
def splitSlash : List Char → List (List Char)
  | [] => [[]]
  | c :: cs =>
    if c = '/' then [] :: splitSlash cs
    else
      match splitSlash cs with
      | s :: ss => (c :: s) :: ss
      | [] => [[c]]

/-- Python `'/'.join(parts)`. -/
def joinSlash : List (List Char) → List Char
  | [] => []
  | [s] => s
  | s :: rest => s ++ '/' :: joinSlash rest

/-- `Allocator._clean_path_segments`: split on `/`, keep the stripped
form of every segment that is non-empty and not all whitespace, rejoin,
and keep a leading `/`. -/
def clean_path_segments (path : List Char) : List Char :=
  let segments :=
    ((splitSlash path).filter
        (fun s => !s.isEmpty && !(trimChars s).isEmpty)).map trimChars
  if path.head? = some '/' then '/' :: joinSlash segments else joinSlash segments

/-- POSIX `os.path.join(a, b)`: an absolute `b` discards `a`. -/
def pyPathJoin (a b : List Char) : List Char :=
  if b.head? = some '/' then b
  else if a.isEmpty || a.getLast? = some '/' then a ++ b
  else a ++ '/' :: b

/-- `Allocator._resolve_template_variables`: the four substitution
passes, path cleaning, and the output-directory step. -/
def resolve_template_variables (destDir : List Char) (env : Env)
    (template : List Char) : List Char :=
  let substituted := substitutePasses env template
  let cleaned := clean_path_segments substituted
  if destDir.isPrefixOf cleaned then cleaned else pyPathJoin destDir cleaned

/-- Modelled from the spec: the path-hygiene procedure as the claim
words it — split on `/`, drop any segment that is empty or
all-whitespace after trim (keeping the surviving segments untrimmed),
rejoin with `/`, preserve a leading `/`, and prepend the output
directory when the result does not already begin with it. -/
def claimCleanSegments (path : List Char) : List Char :=
  let segments := (splitSlash path).filter (fun s => !(trimChars s).isEmpty)
  if path.head? = some '/' then '/' :: joinSlash segments else joinSlash segments

/-- Modelled from the spec: the claimed renderer tail (clean per the
claim's words, then prepend the output directory if absent). -/
def claimRender (destDir raw : List Char) : List Char :=
  let cleaned := claimCleanSegments raw
  if destDir.isPrefixOf cleaned then cleaned else pyPathJoin destDir cleaned

/-- Two adjacent slashes occur somewhere. -/
def hasDoubleSlash : List Char → Bool
  | [] => false
  | c :: cs => (c = '/' && cs.head? = some '/') || hasDoubleSlash cs

theorem splitSlash_ne_nil (l : List Char) : splitSlash l ≠ [] := by
  induction l with
  | nil => simp [splitSlash]
  | cons c cs ih =>
    by_cases hc : c = '/'
    · simp [splitSlash, hc]
    · simp only [splitSlash, if_neg hc]
      cases hsplit : splitSlash cs with
      | nil => exact absurd hsplit ih
      | cons t ts => simp

theorem mem_splitSlash_no_slash :
    ∀ (l : List Char) (s : List Char), s ∈ splitSlash l → '/' ∉ s := by
  intro l
  induction l with
  | nil => intro s hs; simp [splitSlash] at hs; simp [hs]
  | cons c cs ih =>
    intro s hs
    by_cases hc : c = '/'
    · subst hc
      simp [splitSlash] at hs
      rcases hs with rfl | hs
      · simp
      · exact ih s hs
    · simp only [splitSlash, if_neg hc] at hs
      cases hsplit : splitSlash cs with
      | nil => exact absurd hsplit (splitSlash_ne_nil cs)
      | cons t ts =>
        rw [hsplit] at hs
        simp only [List.mem_cons] at hs
        rcases hs with rfl | hs
        · intro hmem
          rcases List.mem_cons.mp hmem with h | h
          · exact hc h.symm
          · exact ih t (by rw [hsplit]; exact List.mem_cons_self t ts) h
        · exact ih s (by rw [hsplit]; exact List.mem_cons_of_mem t hs)

theorem splitSlash_append_slash (a b : List Char) :
    splitSlash (a ++ '/' :: b) = splitSlash a ++ splitSlash b := by
  induction a with
  | nil => simp [splitSlash]
  | cons c a' ih =>
    by_cases hc : c = '/'
    · subst hc; simp [splitSlash, ih]
    · simp only [List.cons_append, splitSlash, if_neg hc]
      cases hsplit : splitSlash a' with
      | nil => exact absurd hsplit (splitSlash_ne_nil a')
      | cons t ts =>
        simp only [List.append_eq]
        rw [ih, hsplit]
        rfl

theorem splitSlash_of_no_slash (s : List Char) (h : '/' ∉ s) :
    splitSlash s = [s] := by
  induction s with
  | nil => rfl
  | cons c s' ih =>
    have hc : c ≠ '/' := fun hcc => h (hcc ▸ List.mem_cons_self c s')
    simp only [splitSlash, if_neg hc,
      ih (fun hm => h (List.mem_cons_of_mem c hm))]

theorem splitSlash_joinSlash :
    ∀ segs : List (List Char), segs ≠ [] → (∀ s ∈ segs, '/' ∉ s) →
      splitSlash (joinSlash segs) = segs := by
  intro segs
  induction segs with
  | nil => intro h; exact absurd rfl h
  | cons s rest ih =>
    intro _ hfree
    rcases rest with _ | ⟨s₂, rest'⟩
    · exact splitSlash_of_no_slash s (hfree s (List.mem_cons_self s []))
    · show splitSlash (s ++ '/' :: joinSlash (s₂ :: rest')) = _
      rw [splitSlash_append_slash,
        splitSlash_of_no_slash s (hfree s (List.mem_cons_self s _)),
        ih (by simp) (fun t ht => hfree t (List.mem_cons_of_mem s ht))]
      simp

theorem mem_dropWhile_self {p : Char → Bool} {c : Char} :
    ∀ {l : List Char}, c ∈ l → p c = false → c ∈ l.dropWhile p := by
  intro l
  induction l with
  | nil => intro h; exact absurd h (List.not_mem_nil c)
  | cons a l' ih =>
    intro hmem hpc
    rw [List.dropWhile_cons]
    by_cases hpa : p a = true
    · rw [if_pos hpa]
      rcases List.mem_cons.mp hmem with rfl | hm
      · rw [hpc] at hpa; exact absurd hpa (by simp)
      · exact ih hm hpc
    · rw [if_neg hpa]; exact hmem

theorem mem_trim_of_mem_nonspace {c : Char} {l : List Char}
    (hmem : c ∈ l) (hc : isSpaceChar c = false) : c ∈ trimChars l := by
  unfold trimChars
  rw [List.mem_reverse]
  exact mem_dropWhile_self (List.mem_reverse.mpr (mem_dropWhile_self hmem hc)) hc

theorem mem_of_mem_trim {c : Char} {l : List Char} (h : c ∈ trimChars l) :
    c ∈ l := by
  unfold trimChars at h
  rw [List.mem_reverse] at h
  have h1 := ((l.dropWhile isSpaceChar).reverse.dropWhile_sublist isSpaceChar).mem h
  rw [List.mem_reverse] at h1
  exact (l.dropWhile_sublist isSpaceChar).mem h1

theorem trim_nil_of_all_space {l : List Char}
    (h : ∀ c ∈ l, isSpaceChar c = true) : trimChars l = [] := by
  unfold trimChars
  have h1 : l.dropWhile isSpaceChar = [] := by
    rw [List.dropWhile_eq_nil_iff]; exact h
  rw [h1]; rfl

/-- A segment whose strip is non-empty keeps a non-empty strip after a
second strip (used because the code stores stripped segments). -/
theorem trim_trim_ne_nil {l : List Char} (h : trimChars l ≠ []) :
    trimChars (trimChars l) ≠ [] := by
  have hex : ∃ c ∈ l, isSpaceChar c = false := by
    by_contra hall
    push_neg at hall
    exact h (trim_nil_of_all_space (fun c hc => by
      have := hall c hc
      simpa using this))
  rcases hex with ⟨c, hcl, hcs⟩
  have h1 : c ∈ trimChars l := mem_trim_of_mem_nonspace hcl hcs
  have h2 : c ∈ trimChars (trimChars l) := mem_trim_of_mem_nonspace h1 hcs
  intro hnil
  rw [hnil] at h2
  exact List.not_mem_nil c h2

theorem hasDoubleSlash_append_left {s l : List Char} (hs : '/' ∉ s) :
    hasDoubleSlash (s ++ l) = hasDoubleSlash l := by
  induction s with
  | nil => rfl
  | cons c s' ih =>
    have hc : c ≠ '/' := fun hcc => hs (hcc ▸ List.mem_cons_self c s')
    have ih' := ih (fun hm => hs (List.mem_cons_of_mem c hm))
    simp only [List.cons_append, hasDoubleSlash, List.append_eq, ih']
    simp [hc]

theorem head?_mem : ∀ {l : List Char} {c : Char}, l.head? = some c → c ∈ l := by
  intro l c h
  cases l with
  | nil => simp at h
  | cons a l' => simp at h; simp [h]

theorem joinSlash_facts :
    ∀ segs : List (List Char), segs ≠ [] →
      (∀ s ∈ segs, s ≠ [] ∧ '/' ∉ s) →
      joinSlash segs ≠ [] ∧
      hasDoubleSlash (joinSlash segs) = false ∧
      (joinSlash segs).head? ≠ some '/' ∧
      (joinSlash segs).getLast? ≠ some '/' := by
  intro segs
  induction segs with
  | nil => intro h; exact absurd rfl h
  | cons s rest ih =>
    intro _ hok
    have hs := hok s (List.mem_cons_self s rest)
    rcases rest with _ | ⟨s₂, rest'⟩
    · refine ⟨hs.1, ?_, ?_, ?_⟩
      · show hasDoubleSlash s = false
        have := hasDoubleSlash_append_left (l := []) hs.2
        simpa using this
      · show s.head? ≠ some '/'
        intro hh
        exact hs.2 (head?_mem hh)
      · show s.getLast? ≠ some '/'
        intro hh
        exact hs.2 (List.mem_of_mem_getLast? hh)
    · have hrest := ih (by simp) (fun t ht => hok t (List.mem_cons_of_mem s ht))
      have hjoin : joinSlash (s :: s₂ :: rest') = s ++ '/' :: joinSlash (s₂ :: rest') :=
        rfl
      refine ⟨by simp [hjoin, hs.1], ?_, ?_, ?_⟩
      · rw [hjoin, hasDoubleSlash_append_left hs.2]
        simp only [hasDoubleSlash, Bool.or_eq_false_iff]
        constructor
        · simp only [Bool.and_eq_false_iff, decide_eq_false_iff_not]
          right
          exact hrest.2.2.1
        · exact hrest.2.1
      · rw [hjoin]
        rcases s with _ | ⟨c, s'⟩
        · exact absurd rfl hs.1
        · intro hh
          simp only [List.cons_append, List.head?_cons, Option.some.injEq] at hh
          exact hs.2 (hh ▸ List.mem_cons_self c s')
      · rw [hjoin, List.getLast?_append_of_ne_nil _ (by simp)]
        rw [show ('/' :: joinSlash (s₂ :: rest') : List Char) =
          ['/'] ++ joinSlash (s₂ :: rest') from rfl]
        rw [List.getLast?_append_of_ne_nil _ hrest.1]
        exact hrest.2.2.2

theorem hasDoubleSlash_cons (c : Char) (cs : List Char) :
    hasDoubleSlash (c :: cs) =
      ((c = '/' && cs.head? = some '/') || hasDoubleSlash cs) := rfl

theorem hasDoubleSlash_append {b : List Char} (hb : hasDoubleSlash b = false) :
    ∀ a : List Char, hasDoubleSlash a = false →
      (a.getLast? = some '/' → b.head? ≠ some '/') →
      hasDoubleSlash (a ++ b) = false := by
  intro a
  induction a with
  | nil => intro _ _; simpa using hb
  | cons c a' ih =>
    intro ha hbound
    cases a' with
    | nil =>
      rw [List.cons_append, List.nil_append, hasDoubleSlash_cons]
      by_cases hc : c = '/'
      · have hh := hbound (by simp [hc])
        simp [hc, hh, hb]
      · simp [hc, hb]
    | cons d a'' =>
      rw [hasDoubleSlash_cons, Bool.or_eq_false_iff] at ha
      have hlasteq : (c :: d :: a'').getLast? = (d :: a'').getLast? := by simp
      have ihres := ih ha.2 (fun hlast => hbound (by rw [hlasteq]; exact hlast))
      rw [List.cons_append, hasDoubleSlash_cons, ihres, Bool.or_false]
      have h1 := ha.1
      simp only [List.head?_cons] at h1
      simp only [List.cons_append, List.head?_cons]
      exact h1

/-- The first segment of a slash split is the maximal slash-free
prefix. -/
theorem splitSlash_head (l : List Char) :
    ∃ ss, splitSlash l = l.takeWhile (fun d => !(d = '/')) :: ss := by
  induction l with
  | nil => exact ⟨[], rfl⟩
  | cons c cs ih =>
    by_cases hc : c = '/'
    · subst hc
      refine ⟨splitSlash cs, ?_⟩
      show (if ('/' : Char) = '/' then [] :: splitSlash cs else _) = _
      rw [if_pos rfl, List.takeWhile_cons, if_neg (by simp)]
    · obtain ⟨ss, hss⟩ := ih
      refine ⟨ss, ?_⟩
      show (if c = '/' then [] :: splitSlash cs else
        match splitSlash cs with
        | s :: ss => (c :: s) :: ss
        | [] => [[c]]) = _
      rw [if_neg hc, hss, List.takeWhile_cons, if_pos (by simpa using hc)]

/-- In a path with no `//` and no trailing `/`, every slash-separated
segment after the first is non-empty. -/
theorem splitSlash_tail_nonempty :
    ∀ l : List Char, hasDoubleSlash l = false → l.getLast? ≠ some '/' →
      ∀ seg ∈ (splitSlash l).tail, seg ≠ [] := by
  intro l
  induction l with
  | nil =>
    intro _ _ seg hseg
    exact absurd hseg (by simp [splitSlash])
  | cons c cs ih =>
    intro hds hlast seg hseg
    have hds2 : hasDoubleSlash cs = false := by
      rw [hasDoubleSlash_cons] at hds
      exact (Bool.or_eq_false_iff.mp hds).2
    by_cases hc : c = '/'
    · subst hc
      have hseg2 : seg ∈ splitSlash cs := by
        have : splitSlash ('/' :: cs) = [] :: splitSlash cs := by
          show (if ('/' : Char) = '/' then [] :: splitSlash cs else _) = _
          rw [if_pos rfl]
        rw [this] at hseg
        exact hseg
      cases cs with
      | nil => simp at hlast
      | cons d ds =>
        have hdnot : d ≠ '/' := by
          intro hd
          rw [hasDoubleSlash_cons] at hds
          rw [hd] at hds
          simp at hds
        obtain ⟨ss, hss⟩ := splitSlash_head (d :: ds)
        rw [hss] at hseg2
        rcases List.mem_cons.mp hseg2 with rfl | hmem
        · intro hnil
          rw [List.takeWhile_cons, if_pos (by simpa using hdnot)] at hnil
          exact List.noConfusion hnil
        · refine ih hds2 ?_ seg ?_
          · rw [List.getLast?_cons_cons] at hlast
            exact hlast
          · rw [hss]
            exact hmem
    · cases hcs : cs with
      | nil =>
        subst hcs
        have : splitSlash [c] = [[c]] := by
          show (if c = '/' then [] :: splitSlash [] else
            match splitSlash [] with
            | s :: ss => (c :: s) :: ss
            | [] => [[c]]) = _
          rw [if_neg hc]
          rfl
        rw [this] at hseg
        exact absurd hseg (by simp)
      | cons d ds =>
        subst hcs
        cases hsp : splitSlash (d :: ds) with
        | nil => exact absurd hsp (splitSlash_ne_nil (d :: ds))
        | cons s ss =>
          have : splitSlash (c :: d :: ds) = (c :: s) :: ss := by
            show (if c = '/' then [] :: splitSlash (d :: ds) else
              match splitSlash (d :: ds) with
              | s :: ss => (c :: s) :: ss
              | [] => [[c]]) = _
            rw [if_neg hc, hsp]
          rw [this] at hseg
          refine ih hds2 ?_ seg ?_
          · rw [List.getLast?_cons_cons] at hlast
            exact hlast
          · rw [hsp]
            exact hseg

/-- An empty first segment means the path begins with `/`. -/
theorem splitSlash_head_empty (l : List Char) (hne : l ≠ [])
    (h : (splitSlash l).head? = some []) : l.head? = some '/' := by
  obtain ⟨ss, hss⟩ := splitSlash_head l
  rw [hss] at h
  injection h with h
  cases l with
  | nil => exact absurd rfl hne
  | cons c cs =>
    rw [List.takeWhile_cons] at h
    by_cases hc : c = '/'
    · rw [hc]
      rfl
    · rw [if_pos (by simpa using hc)] at h
      exact absurd h (by simp)

/-- Facts about the output of `_clean_path_segments` when it is non-empty
and relative: no double slash, no leading or trailing slash, and every
slash-separated segment is non-blank. -/
theorem clean_relative_facts (raw : List Char)
    (hne : clean_path_segments raw ≠ [])
    (hrel : (clean_path_segments raw).head? ≠ some '/') :
    hasDoubleSlash (clean_path_segments raw) = false ∧
    (clean_path_segments raw).getLast? ≠ some '/' ∧
    (clean_path_segments raw).head? ≠ some '/' ∧
    ∀ seg ∈ splitSlash (clean_path_segments raw),
      trimChars seg ≠ [] := by
  by_cases habs : raw.head? = some '/'
  · exfalso
    apply hrel
    unfold clean_path_segments
    rw [if_pos habs]
    rfl
  · have hclean : clean_path_segments raw =
        joinSlash (((splitSlash raw).filter
          (fun s => !s.isEmpty && !(trimChars s).isEmpty)).map trimChars) := by
      unfold clean_path_segments
      rw [if_neg habs]
    set segs := ((splitSlash raw).filter
      (fun s => !s.isEmpty && !(trimChars s).isEmpty)).map trimChars with hsegs
    have hsegok : ∀ s ∈ segs, s ≠ [] ∧ '/' ∉ s := by
      intro s hsmem
      rw [hsegs] at hsmem
      rcases List.mem_map.mp hsmem with ⟨t, htmem, rfl⟩
      have htpred := List.of_mem_filter htmem
      have htsplit := List.mem_of_mem_filter htmem
      simp only [Bool.and_eq_true, Bool.not_eq_true', List.isEmpty_eq_false,
        List.isEmpty_iff] at htpred
      constructor
      · intro hn
        exact absurd hn htpred.2
      · intro hmem
        exact mem_splitSlash_no_slash raw t htsplit (mem_of_mem_trim hmem)
    have hsegsne : segs ≠ [] := by
      intro hnil
      rw [hclean, hnil] at hne
      exact hne rfl
    have jf := joinSlash_facts segs hsegsne hsegok
    refine ⟨by rw [hclean]; exact jf.2.1, by rw [hclean]; exact jf.2.2.2,
      by rw [hclean]; exact jf.2.2.1, ?_⟩
    intro seg hseg
    rw [hclean, splitSlash_joinSlash segs hsegsne
      (fun s hs => (hsegok s hs).2)] at hseg
    rw [hsegs] at hseg
    rcases List.mem_map.mp hseg with ⟨t, htmem, rfl⟩
    have htpred := List.of_mem_filter htmem
    simp only [Bool.and_eq_true, Bool.not_eq_true', List.isEmpty_eq_false,
      List.isEmpty_iff] at htpred
    exact trim_trim_ne_nil htpred.2

end PathHygiene

end Movefile

/-- C2: the claim is refuted on two counts.  First, a substituted path
that is absolute but does not begin with the output directory escapes it:
with output directory `/out` and the token-free template `/misc`,
`os.path.join('/out', '/misc')` discards `/out`, so the rendered path
`/misc` does not begin with the output directory.  Second, the code
stores the *stripped* form of each kept segment, while the claim's
procedure keeps surviving segments untrimmed: on the template `a /b` the
renderer produces `/out/a/b`, not the claim-procedure result
`/out/a /b`. -/
theorem C2_counterexample :
    (¬ ("/out".data <+:
        Movefile.resolve_template_variables "/out".data [] "/misc".data)) ∧
      Movefile.resolve_template_variables "/out".data [] "a /b".data ≠
        Movefile.claimRender "/out".data
          (Movefile.substitutePasses [] "a /b".data) := by
  decide

/-- C2 (amended): kept segments are additionally stripped of surrounding
whitespace, and the output directory is prepended with `os.path.join`,
which discards it when the cleaned path is absolute.  Provided the output
directory is non-empty, has no double slash, no trailing slash and no
all-whitespace segment, and the cleaned substituted path is non-empty and
relative, the rendered path begins with the output directory, contains no
`//`, has no trailing `/`, and has no empty or all-whitespace segment:
every slash-separated segment after the first is non-blank, no segment
anywhere is non-empty all-whitespace, and the first segment is empty only
as the leading-`/` marker of an absolute path. -/
theorem C2_path_hygiene (dest : List Char) (env : Movefile.Env)
    (template : List Char)
    (hdne : dest ≠ [])
    (hdds : Movefile.hasDoubleSlash dest = false)
    (hdlast : dest.getLast? ≠ some '/')
    (hdsegs : ∀ seg ∈ Movefile.splitSlash dest,
      seg = [] ∨ Movefile.trimChars seg ≠ [])
    (hcne : Movefile.clean_path_segments
      (Movefile.substitutePasses env template) ≠ [])
    (hcrel : (Movefile.clean_path_segments
      (Movefile.substitutePasses env template)).head? ≠ some '/') :
    dest <+: Movefile.resolve_template_variables dest env template ∧
    Movefile.hasDoubleSlash
      (Movefile.resolve_template_variables dest env template) = false ∧
    (Movefile.resolve_template_variables dest env template).getLast? ≠
      some '/' ∧
    (∀ seg ∈ (Movefile.splitSlash
        (Movefile.resolve_template_variables dest env template)).tail,
      Movefile.trimChars seg ≠ []) ∧
    (∀ seg ∈ Movefile.splitSlash
        (Movefile.resolve_template_variables dest env template),
      Movefile.trimChars seg = [] → seg = []) ∧
    ((Movefile.splitSlash
        (Movefile.resolve_template_variables dest env template)).head? =
          some [] →
      (Movefile.resolve_template_variables dest env template).head? =
        some '/') := by
  have cf := Movefile.clean_relative_facts
    (Movefile.substitutePasses env template) hcne hcrel
  set c := Movefile.clean_path_segments
    (Movefile.substitutePasses env template) with hc
  have hres : Movefile.resolve_template_variables dest env template =
      if dest.isPrefixOf c then c else Movefile.pyPathJoin dest c := rfl
  by_cases hpre : dest.isPrefixOf c
  · rw [hres, if_pos hpre]
    refine ⟨List.isPrefixOf_iff_prefix.mp hpre, cf.1, cf.2.1,
      fun seg hseg => cf.2.2.2 seg (List.mem_of_mem_tail hseg),
      fun seg hseg ht => absurd ht (cf.2.2.2 seg hseg),
      fun h => absurd (Movefile.splitSlash_head_empty c hcne h) cf.2.2.1⟩
  · have hjoin : Movefile.pyPathJoin dest c = dest ++ '/' :: c := by
      unfold Movefile.pyPathJoin
      rw [if_neg cf.2.2.1, if_neg]
      simp only [List.isEmpty_eq_true, Bool.or_eq_true, decide_eq_true_eq]
      push_neg
      exact ⟨by simpa using hdne, by simpa using hdlast⟩
    have hrne : dest ++ '/' :: c ≠ [] := by
      cases dest with
      | nil => exact absurd rfl hdne
      | cons d ds => simp
    have hdtail : ∀ seg ∈ (Movefile.splitSlash dest).tail, seg ≠ [] :=
      Movefile.splitSlash_tail_nonempty dest hdds hdlast
    rw [hres, if_neg hpre, hjoin]
    refine ⟨⟨'/' :: c, rfl⟩, ?_, ?_, ?_, ?_, ?_⟩
    · apply Movefile.hasDoubleSlash_append _ dest hdds
        (fun h => absurd h hdlast)
      rw [Movefile.hasDoubleSlash_cons, cf.1, Bool.or_false]
      simp only [Bool.and_eq_false_iff, decide_eq_false_iff_not]
      right
      exact cf.2.2.1
    · rw [List.getLast?_append_of_ne_nil _ (by simp)]
      rw [show ('/' :: c : List Char) = ['/'] ++ c from rfl,
        List.getLast?_append_of_ne_nil _ hcne]
      exact cf.2.1
    · intro seg hseg
      rw [Movefile.splitSlash_append_slash] at hseg
      cases hsp : Movefile.splitSlash dest with
      | nil => exact absurd hsp (Movefile.splitSlash_ne_nil dest)
      | cons s ss =>
        rw [hsp] at hseg
        rcases List.mem_append.mp (by simpa using hseg) with h | h
        · have hne2 : seg ≠ [] := by
            apply hdtail
            rw [hsp]
            exact h
          rcases hdsegs seg (by rw [hsp]; exact List.mem_cons_of_mem s h) with
            h2 | h2
          · exact absurd h2 hne2
          · exact h2
        · exact cf.2.2.2 seg h
    · intro seg hseg ht
      rw [Movefile.splitSlash_append_slash, List.mem_append] at hseg
      rcases hseg with h | h
      · rcases hdsegs seg h with h2 | h2
        · exact h2
        · exact absurd ht h2
      · exact absurd ht (cf.2.2.2 seg h)
    · intro h
      exact Movefile.splitSlash_head_empty _ hrne h

/-- Witness for `C2_path_hygiene` at output directory `/out`, empty
environment and template `a/b`. -/
theorem C2_path_hygiene_witness :
    "/out".data <+: Movefile.resolve_template_variables "/out".data [] "a/b".data ∧
    Movefile.hasDoubleSlash
      (Movefile.resolve_template_variables "/out".data [] "a/b".data) = false ∧
    (Movefile.resolve_template_variables "/out".data [] "a/b".data).getLast? ≠
      some '/' ∧
    (∀ seg ∈ (Movefile.splitSlash
        (Movefile.resolve_template_variables "/out".data [] "a/b".data)).tail,
      Movefile.trimChars seg ≠ []) ∧
    (∀ seg ∈ Movefile.splitSlash
        (Movefile.resolve_template_variables "/out".data [] "a/b".data),
      Movefile.trimChars seg = [] → seg = []) ∧
    ((Movefile.splitSlash
        (Movefile.resolve_template_variables "/out".data [] "a/b".data)).head? =
          some [] →
      (Movefile.resolve_template_variables "/out".data [] "a/b".data).head? =
        some '/') :=
  C2_path_hygiene "/out".data [] "a/b".data (by decide) (by decide)
    (by decide) (by decide) (by decide) (by decide)

/-- C3: the claim states that for every token, only the bare NAME is
returned and no part of the DEFAULT text ever appears in a returned name.
On the template `{year:2024}` the code returns the single name
`year:2024` — the split is on `[` only, so the `:DEFAULT` part of a
non-indexed token is kept inside the returned name, contradicting the
code's own docstring step "strip the default-value part". -/
theorem C3_default_kept_in_name :
    Movefile.parse_template_variables Movefile.tmplYearDefault = {"year:2024"} ∧
      "year" ∉ Movefile.parse_template_variables Movefile.tmplYearDefault := by
  decide

namespace Movefile

/-- Environment exhibiting re-scanning: `n` is bound to a list whose
first element is itself a token-shaped string, and `q` is bound. -/
def envRescan : Env :=
  [("n", PyVal.list [PyVal.str (strOf ['{', 'q', '}'])]), ("q", PyVal.str "Z")]

/-- The single-token template `{n[0]}`. -/
def tmplRescan : List Char := tokTxt (.arr ['n'] ['0'])

/-- Witness environment for the index-rendering law. -/
def envIdx : Env := [("a", PyVal.list [PyVal.str "p", PyVal.str "q"])]

/-- Witness environment and items for the pass-equivalence law. -/
def envPassW : Env := [("a", PyVal.str "v")]

def itemsPassW : List Item := [.lit ['u', '/'], .tok (.plain ['a'])]

end Movefile

/-- C6: the claim that the implemented renderer equals a single-pass
renderer (substituted text never rescanned) is refuted: the code performs
four `re.sub` passes, and text produced by pass 2 is substituted again by
pass 4.  With `n` bound to the list whose element 0 is the string
`{q}` and `q` bound to `Z`, the template `{n[0]}` renders to `Z`,
while the single-pass reference renderer yields `{q}`. -/
theorem C6_counterexample :
    Movefile.substitutePasses Movefile.envRescan Movefile.tmplRescan =
      "Z".data ∧
    Movefile.singlePassSpec Movefile.envRescan Movefile.tmplRescan =
      ('{' :: 'q' :: ['}']) ∧
    Movefile.substitutePasses Movefile.envRescan Movefile.tmplRescan ≠
      Movefile.singlePassSpec Movefile.envRescan Movefile.tmplRescan := by
  decide

/-- C6 (amended): the implemented four-pass renderer and the spec's
single-pass renderer agree on every template made of brace-free literal
runs and grammar-conforming tokens whose defaults contain no `{`, over
every environment whose values stringify without `{`; in general,
text produced by one pass can be rescanned and substituted by a later
pass. -/
theorem C6_four_pass_eq_single_pass (env : Movefile.Env)
    (items : List Movefile.Item)
    (henv : Movefile.envOkB env = true)
    (hitems : ∀ i ∈ items, Movefile.wfItemB i = true) :
    Movefile.substitutePasses env (Movefile.itemsTxt items) =
      Movefile.singlePassSpec env (Movefile.itemsTxt items) := by
  have h1 := Movefile.pass_items (Movefile.sub1 env) items hitems
  have hwf1 := Movefile.wf_map_apply
    (fun t r hnb hs => Movefile.sub1_out henv hnb hs) hitems
  have h2 := Movefile.pass_items (Movefile.sub2 env) _ hwf1
  have hwf2 := Movefile.wf_map_apply
    (fun t r hnb hs => Movefile.sub2_out henv hnb hs) hwf1
  have h3 := Movefile.pass_items (Movefile.sub3 env) _ hwf2
  have hwf3 := Movefile.wf_map_apply
    (fun t r hnb hs => Movefile.sub3_out henv hnb hs) hwf2
  have h4 := Movefile.pass_items (Movefile.sub4 env) _ hwf3
  have hspec := Movefile.pass_items (Movefile.subSpecTable env) items hitems
  unfold Movefile.substitutePasses Movefile.singlePassSpec
  rw [h1, h2, h3, h4, hspec]
  congr 1
  rw [List.map_map, List.map_map, List.map_map]
  exact List.map_congr_left (fun i _ => Movefile.applyItem_chain env i)

/-- Witness for `C6_four_pass_eq_single_pass` on the template `u/{a}`
with `a` bound to `v`. -/
theorem C6_four_pass_eq_single_pass_witness :
    Movefile.substitutePasses Movefile.envPassW
      (Movefile.itemsTxt Movefile.itemsPassW) =
      Movefile.singlePassSpec Movefile.envPassW
        (Movefile.itemsTxt Movefile.itemsPassW) :=
  C6_four_pass_eq_single_pass Movefile.envPassW Movefile.itemsPassW
    (by decide) (by decide)

/-- C5: the claim that `{n[i]}` renders to `str(L[i])` whenever
`0 ≤ i < len(L)` is refuted when the element itself contains a token:
with `n` bound to a list whose element 0 is the string `{q}` and `q`
bound to `Z`, the single-token template `{n[0]}` renders to `Z`, not to
`str(L[0])`, because the pass-2 replacement is rescanned by pass 4. -/
theorem C5_counterexample :
    Movefile.envGet Movefile.envRescan "n" =
      Option.some (Movefile.PyVal.list
        [Movefile.PyVal.str (Movefile.strOf ['{', 'q', '}'])]) ∧
    Movefile.substitutePasses Movefile.envRescan
      (Movefile.tokTxt (.arr ['n'] ['0'])) = "Z".data ∧
    "Z".data ≠
      (Movefile.pyStr
        (Movefile.PyVal.str (Movefile.strOf ['{', 'q', '}']))).data := by
  decide

/-- C5 (amended): provided the element strings and the default text
contain no `{` (so no later pass rescans the replacement), the token
`{n[i]:d}` renders to `str(L[i])` iff `0 ≤ i < len(L)` and to `d`
otherwise, and `{n[i]}` renders to `str(L[i])` iff `0 ≤ i < len(L)` and
to the literal `unknown` otherwise, including when `n` is absent or not
bound to a list. -/
theorem C5_index_rendering (env : Movefile.Env) (n ds d : List Char)
    (hn : Movefile.runB Movefile.isWordChar n = true)
    (hds : Movefile.runB Movefile.isDigitChar ds = true)
    (hd : Movefile.runB (fun c => c ≠ '}') d = true)
    (hdnb : d.all (fun c => c ≠ '{') = true) :
    (∀ L : List Movefile.PyVal,
      Movefile.envGet env (Movefile.strOf n) =
        Option.some (Movefile.PyVal.list L) →
      (∀ v ∈ L, ∀ c ∈ (Movefile.pyStr v).data, c ≠ '{') →
      Movefile.substitutePasses env (Movefile.tokTxt (.arrDef n ds d)) =
        (if h : Movefile.digitsToNat ds < L.length
         then (Movefile.pyStr (L.get ⟨Movefile.digitsToNat ds, h⟩)).data
         else d) ∧
      Movefile.substitutePasses env (Movefile.tokTxt (.arr n ds)) =
        (if h : Movefile.digitsToNat ds < L.length
         then (Movefile.pyStr (L.get ⟨Movefile.digitsToNat ds, h⟩)).data
         else "unknown".data)) ∧
    (Movefile.envGet env (Movefile.strOf n) = Option.none →
      Movefile.substitutePasses env (Movefile.tokTxt (.arr n ds)) =
        "unknown".data) ∧
    (∀ v, Movefile.envGet env (Movefile.strOf n) = Option.some v →
      (∀ L, v ≠ Movefile.PyVal.list L) →
      Movefile.substitutePasses env (Movefile.tokTxt (.arr n ds)) =
        "unknown".data) := by
  have hdnb' : ∀ c ∈ d, c ≠ '{' := fun c hc =>
    of_decide_eq_true (List.all_eq_true.mp hdnb c hc)
  have hd' : Movefile.runB (fun c => !decide (c = '}')) d = true := by
    simpa using hd
  have hwfA : Movefile.wfTokB (.arrDef n ds d) = true := by
    simp [Movefile.wfTokB, hn, hds, hd']
  have hwfB : Movefile.wfTokB (.arr n ds) = true := by
    simp [Movefile.wfTokB, hn, hds]
  have hnbA : Movefile.defNoBraceB (.arrDef n ds d) = true := hdnb
  have hnbB : Movefile.defNoBraceB (.arr n ds) = true := rfl
  refine ⟨?_, ?_, ?_⟩
  · intro L hL hLel
    constructor
    · by_cases hrange : Movefile.digitsToNat ds < L.length
      · rw [dif_pos hrange]
        apply Movefile.quad_first_subst env hwfA
          (r := Movefile.pyStr (L.get ⟨Movefile.digitsToNat ds, hrange⟩))
        · simp [Movefile.sub1, hL, hrange]
        · exact hLel _ (List.get_mem L _ _)
      · rw [dif_neg hrange]
        have hout : Movefile.sub1 env (.arrDef n ds d) =
            Option.some (Movefile.strOf d) := by
          simp [Movefile.sub1, hL, hrange]
        exact Movefile.quad_first_subst env hwfA hout hdnb'
    · by_cases hrange : Movefile.digitsToNat ds < L.length
      · rw [dif_pos hrange]
        apply Movefile.quad_second_subst env hwfB hnbB
          (by simp [Movefile.sub1])
          (r := Movefile.pyStr (L.get ⟨Movefile.digitsToNat ds, hrange⟩))
          (by simp [Movefile.sub2, hL, hrange])
        exact hLel _ (List.get_mem L _ _)
      · rw [dif_neg hrange]
        apply Movefile.quad_second_subst env hwfB hnbB
          (by simp [Movefile.sub1])
          (r := "unknown")
          (by simp [Movefile.sub2, hL, hrange])
        decide
  · intro hL
    apply Movefile.quad_second_subst env hwfB hnbB
      (by simp [Movefile.sub1])
      (r := "unknown")
      (by simp [Movefile.sub2, hL])
    decide
  · intro v hv hnl
    have hs : Movefile.sub2 env (.arr n ds) = Option.some "unknown" := by
      cases v with
      | list L => exact absurd rfl (hnl L)
      | str s => simp [Movefile.sub2, hv]
      | int m => simp [Movefile.sub2, hv]
      | none => simp [Movefile.sub2, hv]
    apply Movefile.quad_second_subst env hwfB hnbB
      (by simp [Movefile.sub1]) (r := "unknown") hs
    decide

/-- Witness for `C5_index_rendering`: `a` bound to the list `[p, q]`;
`{a[1]:x}` renders to `q` and `{a[5]}` renders to `unknown`. -/
theorem C5_index_rendering_witness :
    Movefile.substitutePasses Movefile.envIdx
      (Movefile.tokTxt (.arrDef ['a'] ['1'] ['x'])) = "q".data ∧
    Movefile.substitutePasses Movefile.envIdx
      (Movefile.tokTxt (.arr ['a'] ['5'])) = "unknown".data := by
  constructor
  · have h := (C5_index_rendering Movefile.envIdx ['a'] ['1'] ['x']
      (by decide) (by decide) (by decide) (by decide)).1
      [Movefile.PyVal.str "p", Movefile.PyVal.str "q"] (by decide) (by decide)
    exact h.1.trans (by decide)
  · have h := (C5_index_rendering Movefile.envIdx ['a'] ['5'] ['x']
      (by decide) (by decide) (by decide) (by decide)).1
      [Movefile.PyVal.str "p", Movefile.PyVal.str "q"] (by decide) (by decide)
    exact h.2.trans (by decide)

namespace Movefile

/-!  `src/module/file_manager.py` — the copy engine.

`current_copying_instance.__init__` (lines 26-44) selects the hash
algorithm; `get_hash` (46-63) hashes a file with it; `__fastcopy`
(65-186) copies one destination (single-threaded `shutil.copy2` for
files smaller than two chunks, otherwise chunked parallel copy with
temporary `<target>.part<i>` files, merge, metadata copy and size
check, with an exception handler that removes `<target>.part0..9` and
the target); `copy_initiator` (188-230) loops over destinations,
hashing source and target and deleting a destination whose hash
mismatches.

Embedding choices:
  * one destination's on-disk state is `DestState` (target file and the
    part files, as byte-list contents);
  * failures are injected through an `Inj` schedule: any read, write,
    open, stat or metadata call may raise, a write may stop after a
    prefix, and a completed write may corrupt the data without changing
    its length (hashes are modelled as the identity on contents, which
    is collision-free);
  * `os.remove` and `os.path.exists` are the cleanup machinery itself
    and are not failure points;
  * chunk workers write to disjoint part files and to disjoint `results`
    slots, so every interleaving of the thread pool produces the same
    final state as the aggregate below;
  * distinct destinations are distinct files, so each destination is
    processed against its own `DestState`.
-/

/-- The on-disk state at one destination: the target file and the
`<target>.part<i>` files (`none` = absent). -/
structure DestState where
  tgt : Option (List Nat)
  parts : Nat → Option (List Nat)

/-- No files at the destination. -/
def emptyDest : DestState := { tgt := Option.none, parts := fun _ => Option.none }

/-- Outcome of `shutil.copy2` on the small-file path: success with
optional same-length corruption, or an exception leaving an optional
partial target. -/
inductive SmallOutcome where
  | ok (corrupt : Option (List Nat))
  | fail (partial0 : Option (List Nat))

/-- Failure-injection schedule for one destination. -/
structure Inj where
  makedirsFail : Bool
  getsizeFail : Bool
  smallCopy : SmallOutcome
  chunkRead : Nat → Bool
  chunkWrite : Nat → Option Nat
  chunkCorrupt : Nat → Option (List Nat)
  mergeOpenFail : Bool
  mergeReadFail : Nat → Bool
  mergeWriteFail : Nat → Option Nat
  copystatFail : Bool
  getsizeTgtFail : Bool
  hashSrcFail : Bool
  mkdirs2Fail : Bool
  hashTgtFail : Bool

/-- The no-failure schedule. -/
def injNone : Inj :=
  { makedirsFail := false, getsizeFail := false,
    smallCopy := .ok Option.none,
    chunkRead := fun _ => false, chunkWrite := fun _ => Option.none,
    chunkCorrupt := fun _ => Option.none,
    mergeOpenFail := false, mergeReadFail := fun _ => false,
    mergeWriteFail := fun _ => Option.none,
    copystatFail := false, getsizeTgtFail := false,
    hashSrcFail := false, mkdirs2Fail := false, hashTgtFail := false }

/-- A completed write either stores the intended bytes or an injected
same-length corruption. -/
def applyCorrupt (c : Option (List Nat)) (data : List Nat) : List Nat :=
  match c with
  | Option.some cc => if cc.length = data.length ∧ cc ≠ data then cc else data
  | Option.none => data

theorem applyCorrupt_length (c : Option (List Nat)) (data : List Nat) :
    (applyCorrupt c data).length = data.length := by
  cases c with
  | none => rfl
  | some cc =>
    simp only [applyCorrupt]
    split
    · exact (by assumption : cc.length = data.length ∧ cc ≠ data).1
    · rfl

/-- The `except` handler of `__fastcopy` (lines 171-186): remove
`<target>.part0` … `<target>.part9` and the target. -/
def excCleanup (st : DestState) : DestState :=
  { tgt := Option.none,
    parts := fun j => if j < 10 then Option.none else st.parts j }

/-- Result of the merge loop (lines 146-154): normal completion, the
bare `return False` on a missing part file, or an exception. -/
inductive MRes where
  | ok (st : DestState)
  | ret (st : DestState)
  | exc (st : DestState)

/-- The merge loop: for each chunk index in order, check the part file
exists (else `return False`), read it (may raise), append it to the
target (may raise after a prefix), and remove the part file. -/
def mergeLoop (inj : Inj) : List Nat → DestState → MRes
  | [], st => .ok st
  | i :: rest, st =>
    match st.parts i with
    | Option.none => .ret st
    | Option.some pdata =>
      if inj.mergeReadFail i then .exc st
      else
        match inj.mergeWriteFail i with
        | Option.some k =>
          .exc { st with tgt := Option.some ((st.tgt.getD []) ++ pdata.take k) }
        | Option.none =>
          mergeLoop inj rest
            { tgt := Option.some ((st.tgt.getD []) ++ pdata),
              parts := fun j => if j = i then Option.none else st.parts j }

/-- The merge-and-verify tail of `__fastcopy` (lines 143-169): open the
target (may raise), run the merge loop, copy metadata (may raise), and
check the size, removing the target on mismatch. -/
def fastcopyMergePhase (inj : Inj) (fsize num : Nat) (st1 : DestState) :
    Bool × DestState :=
  if inj.mergeOpenFail then (false, excCleanup st1)
  else
    match mergeLoop inj (List.range num) { st1 with tgt := Option.some [] } with
    | .ret st2 => (false, st2)
    | .exc st2 => (false, excCleanup st2)
    | .ok st2 =>
      if inj.copystatFail then (false, excCleanup st2)
      else if inj.getsizeTgtFail then (false, excCleanup st2)
      else if (st2.tgt.getD []).length ≠ fsize then
        (false, { st2 with tgt := Option.none })
      else (true, st2)

/-- `current_copying_instance.__fastcopy`. -/
def fastcopy (inj : Inj) (src : List Nat) (maxWorkers chunkSize : Nat)
    (st : DestState) : Bool × DestState :=
  if inj.makedirsFail then (false, excCleanup st)
  else if inj.getsizeFail then (false, excCleanup st)
  else
    let fsize := src.length
    if fsize < 2 * chunkSize then
      match inj.smallCopy with
      | .fail partial0 =>
        (false, excCleanup { st with tgt := match partial0 with
          | Option.some l => Option.some l
          | Option.none => st.tgt })
      | .ok corrupt => (true, { st with tgt := Option.some (applyCorrupt corrupt src) })
    else
      let num := min maxWorkers ((fsize + chunkSize - 1) / chunkSize)
      let base := fsize / num
      let chunkData := fun i =>
        (src.drop (i * base)).take
          ((if i = num - 1 then fsize else (i + 1) * base) - i * base)
      let partVal : Nat → Option (List Nat) := fun i =>
        if inj.chunkRead i then Option.none
        else
          match inj.chunkWrite i with
          | Option.some k =>
            Option.some ((applyCorrupt (inj.chunkCorrupt i) (chunkData i)).take k)
          | Option.none => Option.some (applyCorrupt (inj.chunkCorrupt i) (chunkData i))
      let okResult : Nat → Bool := fun i =>
        !inj.chunkRead i && (inj.chunkWrite i).isNone
      let st1 : DestState :=
        { st with parts := fun j => if j < num then partVal j else st.parts j }
      if !((List.range num).all okResult) then
        (false, { st1 with parts := fun j => if j < num then Option.none else st1.parts j })
      else fastcopyMergePhase inj fsize num st1

/-- `current_copying_instance.__init__` (lines 33-41): the configured
algorithm is used only when truthy and available, otherwise `'md5'`. -/
def hashFuncOf (available : List String) (cfg : Option String) : String :=
  match cfg with
  | Option.some s => if s ≠ "" && available.contains s then s else "md5"
  | Option.none => "md5"

/-- `get_hash` (lines 46-63) modelled with the identity hash: returns
`""` (here `Option.none`) iff the algorithm string is empty, otherwise
the file's content. -/
def getHashVal (hashFunc : String) (content : List Nat) : Option (List Nat) :=
  if hashFunc = "" then Option.none else Option.some content

/-- One destination's processing inside `copy_initiator` (lines
202-228): hash the source, make the directory, `__fastcopy` with the
default 4 workers and 1 MiB chunks, hash the target, and delete the
destination on mismatch.  Exceptions are caught by the per-destination
handler, which performs no cleanup. -/
def copyOne (inj : Inj) (hashFunc : String) (src : List Nat)
    (st : DestState) : Bool × DestState :=
  if inj.hashSrcFail && !(hashFunc = "") then (false, st)
  else if inj.mkdirs2Fail then (false, st)
  else
    match fastcopy inj src 4 1048576 st with
    | (false, st') => (false, st')
    | (true, st') =>
      if inj.hashTgtFail && !(hashFunc = "") then (false, st')
      else if getHashVal hashFunc src ≠ getHashVal hashFunc (st'.tgt.getD []) then
        (false, { st' with tgt := Option.none })
      else (true, st')

/-- `copy_initiator` (lines 188-230): `False` on an empty destination
tuple, otherwise every destination is processed independently and the
results are conjoined. -/
def copy_initiator (hashFunc : String) (src : List Nat) (injs : List Inj) :
    Bool × List DestState :=
  if injs.isEmpty then (false, [])
  else
    let results := injs.map (fun inj => copyOne inj hashFunc src emptyDest)
    (results.all (fun r => r.1), results.map (fun r => r.2))

end Movefile

namespace Movefile

/-- Disk state extracted from a merge result. -/
def mresState : MRes → DestState
  | .ok st => st
  | .ret st => st
  | .exc st => st

/-- No `<target>.partN` file for `N` in `0..10` remains. -/
def noPartsUpTo (st : DestState) : Prop :=
  ∀ i, i ≤ 10 → st.parts i = Option.none

/-- The merge loop never creates a part file: an absent part file stays
absent through it. -/
theorem mergeLoop_preserve (inj : Inj) :
    ∀ (ids : List Nat) (st : DestState) (j : Nat),
      st.parts j = Option.none →
      (mresState (mergeLoop inj ids st)).parts j = Option.none := by
  intro ids
  induction ids with
  | nil => intro st j hj; exact hj
  | cons i rest ih =>
    intro st j hj
    show (mresState (mergeLoop inj (i :: rest) st)).parts j = Option.none
    simp only [mergeLoop]
    cases hp : st.parts i with
    | none => exact hj
    | some pdata =>
      dsimp only
      by_cases hr : inj.mergeReadFail i
      · rw [if_pos hr]; exact hj
      · rw [if_neg hr]
        cases hw : inj.mergeWriteFail i with
        | some k => exact hj
        | none =>
          apply ih
          show (if j = i then Option.none else st.parts j) = Option.none
          by_cases hji : j = i
          · rw [if_pos hji]
          · rw [if_neg hji]; exact hj

/-- With all its part files present and distinct indices, the merge loop
never takes the missing-part `return False` exit. -/
theorem mergeLoop_no_ret (inj : Inj) :
    ∀ (ids : List Nat) (st : DestState), ids.Nodup →
      (∀ i ∈ ids, st.parts i ≠ Option.none) →
      ∀ st2, mergeLoop inj ids st ≠ .ret st2 := by
  intro ids
  induction ids with
  | nil => intro st _ _ st2 h; exact MRes.noConfusion h
  | cons i rest ih =>
    intro st hnd hpre st2 h
    simp only [mergeLoop] at h
    cases hp : st.parts i with
    | none => exact hpre i (List.mem_cons_self i rest) hp
    | some pdata =>
      rw [hp] at h
      dsimp only at h
      by_cases hr : inj.mergeReadFail i
      · rw [if_pos hr] at h; exact MRes.noConfusion h
      · rw [if_neg hr] at h
        cases hw : inj.mergeWriteFail i with
        | some k => rw [hw] at h; exact MRes.noConfusion h
        | none =>
          rw [hw] at h
          dsimp only at h
          refine ih _ (List.Nodup.of_cons hnd) ?_ st2 h
          intro i' hi'
          show (if i' = i then Option.none else st.parts i') ≠ Option.none
          have hne : i' ≠ i := by
            intro hh
            subst hh
            exact (List.nodup_cons.mp hnd).1 hi'
          rw [if_neg hne]
          exact hpre i' (List.mem_cons_of_mem i hi')

/-- A completed merge has removed every part file it processed. -/
theorem mergeLoop_ok_parts (inj : Inj) :
    ∀ (ids : List Nat) (st st2 : DestState),
      mergeLoop inj ids st = .ok st2 → ∀ i ∈ ids, st2.parts i = Option.none := by
  intro ids
  induction ids with
  | nil => intro st st2 _ i hi; exact absurd hi (List.not_mem_nil i)
  | cons i rest ih =>
    intro st st2 h i' hi'
    simp only [mergeLoop] at h
    cases hp : st.parts i with
    | none => rw [hp] at h; exact MRes.noConfusion h
    | some pdata =>
      rw [hp] at h
      dsimp only at h
      by_cases hr : inj.mergeReadFail i
      · rw [if_pos hr] at h; exact MRes.noConfusion h
      · rw [if_neg hr] at h
        cases hw : inj.mergeWriteFail i with
        | some k => rw [hw] at h; exact MRes.noConfusion h
        | none =>
          rw [hw] at h
          dsimp only at h
          rcases List.mem_cons.mp hi' with rfl | hmem
          · have := mergeLoop_preserve inj rest
              { tgt := Option.some ((st.tgt.getD []) ++ pdata),
                parts := fun j => if j = i' then Option.none else st.parts j }
              i' (by simp)
            rw [h] at this
            exact this
          · exact ih _ _ h i' hmem

/-- A merge that completes keeps the target file present. -/
theorem mergeLoop_ok_tgt (inj : Inj) :
    ∀ (ids : List Nat) (st st2 : DestState),
      st.tgt ≠ Option.none → mergeLoop inj ids st = .ok st2 →
      st2.tgt ≠ Option.none := by
  intro ids
  induction ids with
  | nil =>
    intro st st2 ht h
    simp only [mergeLoop] at h
    injection h with h
    subst h
    exact ht
  | cons i rest ih =>
    intro st st2 ht h
    simp only [mergeLoop] at h
    cases hp : st.parts i with
    | none => rw [hp] at h; exact MRes.noConfusion h
    | some pdata =>
      rw [hp] at h
      dsimp only at h
      by_cases hr : inj.mergeReadFail i
      · rw [if_pos hr] at h; exact MRes.noConfusion h
      · rw [if_neg hr] at h
        cases hw : inj.mergeWriteFail i with
        | some k => rw [hw] at h; exact MRes.noConfusion h
        | none =>
          rw [hw] at h
          dsimp only at h
          exact ih _ _ (by simp) h

/-- The exception handler leaves no part file when the input state has
none above index 9. -/
theorem excCleanup_parts (st : DestState)
    (hst : ∀ j, 10 ≤ j → st.parts j = Option.none) :
    noPartsUpTo (excCleanup st) := by
  intro i hi
  show (if i < 10 then Option.none else st.parts i) = Option.none
  by_cases h : i < 10
  · rw [if_pos h]
  · rw [if_neg h]; exact hst i (by omega)

/-- The merge-and-verify phase, started on a state whose part files are
exactly those below `num ≤ 10` and with no target file: it never leaves a
part file at index ≤ 10; on failure it leaves no target file; on success
the target holds data of the expected size. -/
theorem fastcopyMergePhase_spec (inj : Inj) (fsize num : Nat) (hn : num ≤ 10)
    (st1 : DestState)
    (hpres : ∀ i, i < num → st1.parts i ≠ Option.none)
    (habs : ∀ j, num ≤ j → st1.parts j = Option.none) :
    noPartsUpTo (fastcopyMergePhase inj fsize num st1).2 ∧
    ((fastcopyMergePhase inj fsize num st1).1 = false →
      (fastcopyMergePhase inj fsize num st1).2.tgt = Option.none) ∧
    ((fastcopyMergePhase inj fsize num st1).1 = true →
      ∃ d, (fastcopyMergePhase inj fsize num st1).2.tgt = Option.some d ∧
        d.length = fsize) := by
  unfold fastcopyMergePhase
  cases h3 : inj.mergeOpenFail with
  | true =>
    exact ⟨excCleanup_parts st1 (fun j hj => habs j (by omega)),
      fun _ => rfl, fun hf => Bool.noConfusion hf⟩
  | false =>
    cases hm : mergeLoop inj (List.range num) { st1 with tgt := Option.some [] } with
    | ret st2 =>
      exact absurd hm (mergeLoop_no_ret inj (List.range num)
        { st1 with tgt := Option.some [] } (List.nodup_range num)
        (fun i hi => hpres i (List.mem_range.mp hi)) st2)
    | exc st2 =>
      have hup : ∀ j, 10 ≤ j → st2.parts j = Option.none := by
        intro j hj
        have := mergeLoop_preserve inj (List.range num)
          { st1 with tgt := Option.some [] } j (habs j (by omega))
        rw [hm] at this
        exact this
      exact ⟨excCleanup_parts st2 hup, fun _ => rfl, fun hf => Bool.noConfusion hf⟩
    | ok st2 =>
      have hup : noPartsUpTo st2 := by
        intro i hi
        by_cases hin : i < num
        · exact mergeLoop_ok_parts inj (List.range num) _ st2 hm i (List.mem_range.mpr hin)
        · have := mergeLoop_preserve inj (List.range num)
            { st1 with tgt := Option.some [] } i (habs i (by omega))
          rw [hm] at this
          exact this
      have hup10 : ∀ j, 10 ≤ j → st2.parts j = Option.none := by
        intro j hj
        have := mergeLoop_preserve inj (List.range num)
          { st1 with tgt := Option.some [] } j (habs j (by omega))
        rw [hm] at this
        exact this
      dsimp only
      cases h4 : inj.copystatFail with
      | true => exact ⟨excCleanup_parts st2 hup10, fun _ => rfl, fun hf => Bool.noConfusion hf⟩
      | false =>
        cases h5 : inj.getsizeTgtFail with
        | true => exact ⟨excCleanup_parts st2 hup10, fun _ => rfl, fun hf => Bool.noConfusion hf⟩
        | false =>
          by_cases h6 : (st2.tgt.getD []).length ≠ fsize
          · rw [if_pos h6]
            exact ⟨hup, fun _ => rfl, fun hf => Bool.noConfusion hf⟩
          · rw [if_neg h6]
            refine ⟨hup, fun hf => Bool.noConfusion hf, fun _ => ?_⟩
            have htgt : st2.tgt ≠ Option.none :=
              mergeLoop_ok_tgt inj (List.range num) { st1 with tgt := Option.some [] }
                st2 (by simp) hm
            cases hd : st2.tgt with
            | none => exact absurd hd htgt
            | some d =>
              refine ⟨d, hd, ?_⟩
              have : (st2.tgt.getD []).length = fsize := by omega
              rw [hd] at this
              exact this

/-- `__fastcopy` from an empty destination: it never leaves a part file
at index ≤ 10; on failure it leaves no target file; on success the target
holds data the size of the source. -/
theorem fastcopy_spec (inj : Inj) (src : List Nat) (C : Nat) :
    noPartsUpTo (fastcopy inj src 4 C emptyDest).2 ∧
    ((fastcopy inj src 4 C emptyDest).1 = false →
      (fastcopy inj src 4 C emptyDest).2.tgt = Option.none) ∧
    ((fastcopy inj src 4 C emptyDest).1 = true →
      ∃ d, (fastcopy inj src 4 C emptyDest).2.tgt = Option.some d ∧
        d.length = src.length) := by
  unfold fastcopy
  cases h1 : inj.makedirsFail with
  | true =>
    exact ⟨excCleanup_parts emptyDest (fun _ _ => rfl), fun _ => rfl,
      fun hf => Bool.noConfusion hf⟩
  | false =>
  cases h2 : inj.getsizeFail with
  | true =>
    exact ⟨excCleanup_parts emptyDest (fun _ _ => rfl), fun _ => rfl,
      fun hf => Bool.noConfusion hf⟩
  | false =>
  dsimp only
  by_cases hsz : src.length < 2 * C
  · rw [if_pos hsz]
    cases hsc : inj.smallCopy with
    | fail p0 =>
      exact ⟨excCleanup_parts _ (fun _ _ => rfl), fun _ => rfl,
        fun hf => Bool.noConfusion hf⟩
    | ok corrupt =>
      exact ⟨fun _ _ => rfl, fun hf => Bool.noConfusion hf,
        fun _ => ⟨applyCorrupt corrupt src, rfl, applyCorrupt_length corrupt src⟩⟩
  · rw [if_neg hsz]
    by_cases hok : (List.range (min 4 ((src.length + C - 1) / C))).all
        (fun i => !inj.chunkRead i && (inj.chunkWrite i).isNone) = true
    · rw [hok]
      refine fastcopyMergePhase_spec inj src.length _ (le_trans (min_le_left _ _) (by omega))
        _ ?_ ?_
      · intro i hi
        have hoki := List.all_eq_true.mp hok i (List.mem_range.mpr hi)
        rw [Bool.and_eq_true] at hoki
        have hcr : inj.chunkRead i = false := by
          cases hcc : inj.chunkRead i
          · rfl
          · rw [hcc] at hoki; exact absurd hoki.1 (by decide)
        have hcw : inj.chunkWrite i = Option.none := Option.isNone_iff_eq_none.mp hoki.2
        show (if i < min 4 ((src.length + C - 1) / C) then _ else _) ≠ Option.none
        rw [if_pos hi, hcr, hcw]
        simp
      · intro j hj
        show (if j < min 4 ((src.length + C - 1) / C) then _ else _) = Option.none
        rw [if_neg (by omega)]
        rfl
    · have hok' : (List.range (min 4 ((src.length + C - 1) / C))).all
          (fun i => !inj.chunkRead i && (inj.chunkWrite i).isNone) = false :=
        Bool.eq_false_iff.mpr hok
      rw [hok']
      refine ⟨?_, fun _ => rfl, fun hf => Bool.noConfusion hf⟩
      intro i hi
      show (if i < min 4 ((src.length + C - 1) / C) then Option.none
        else if i < min 4 ((src.length + C - 1) / C) then _ else _) = Option.none
      by_cases h : i < min 4 ((src.length + C - 1) / C)
      · rw [if_pos h]
      · rw [if_neg h, if_neg h]
        rfl

/-- A schedule whose only failure is `shutil.copy2` raising on the
small-file path after writing a partial target. -/
def injSmallFail : Inj :=
  { injNone with smallCopy := .fail (Option.some [7]) }

/-- C1: for every failure schedule, source content and hash algorithm,
when the copy of the source to a target fails (the engine reports
`False`, after a failure injected at any chunk, at merge, at metadata
copy, at the size or hash check, or an exception anywhere in between),
no `<target>.partN` file for `N` in `0..10` remains, and no partially
written target file remains: any surviving target file holds data of the
full source length (a complete copy can survive only an exception raised
while hashing the already-written target; with no failure injected
there, no target file remains at all). -/
theorem C1_cleanup_on_failure (inj : Inj) (hashFunc : String) (src : List Nat)
    (h : (copyOne inj hashFunc src emptyDest).1 = false) :
    noPartsUpTo (copyOne inj hashFunc src emptyDest).2 ∧
    (∀ d, (copyOne inj hashFunc src emptyDest).2.tgt = Option.some d →
      d.length = src.length) ∧
    (inj.hashTgtFail = false →
      (copyOne inj hashFunc src emptyDest).2.tgt = Option.none) := by
  revert h
  have hs := fastcopy_spec inj src 1048576
  unfold copyOne
  cases hA : inj.hashSrcFail && !(hashFunc = "") with
  | true =>
    intro _
    exact ⟨fun _ _ => rfl, fun d hd => Option.noConfusion hd, fun _ => rfl⟩
  | false =>
  cases hB : inj.mkdirs2Fail with
  | true =>
    intro _
    exact ⟨fun _ _ => rfl, fun d hd => Option.noConfusion hd, fun _ => rfl⟩
  | false =>
  cases hf : fastcopy inj src 4 1048576 emptyDest with
  | mk b st' =>
    rw [hf] at hs
    cases b with
    | false =>
      intro _
      have ht : st'.tgt = Option.none := hs.2.1 rfl
      refine ⟨hs.1, fun d hd => ?_, fun _ => ht⟩
      have hd2 : st'.tgt = Option.some d := hd
      rw [ht] at hd2
      exact Option.noConfusion hd2
    | true =>
      obtain ⟨d, hd, hlen⟩ := hs.2.2 rfl
      have hd0 : st'.tgt = Option.some d := hd
      dsimp only
      cases hC : inj.hashTgtFail && !(hashFunc = "") with
      | true =>
        intro _
        refine ⟨hs.1, fun d' hd' => ?_, fun hft => ?_⟩
        · have hd2 : st'.tgt = Option.some d' := hd'
          rw [hd0] at hd2
          injection hd2 with hh
          rw [← hh]
          exact hlen
        · rw [hft] at hC
          simp at hC
      | false =>
        by_cases hD : getHashVal hashFunc src ≠ getHashVal hashFunc (st'.tgt.getD [])
        · rw [if_pos hD]
          intro _
          refine ⟨hs.1, fun d' hd' => ?_, fun _ => rfl⟩
          exact Option.noConfusion (show Option.none = Option.some d' from hd')
        · rw [if_neg hD]
          intro hfalse
          exact Bool.noConfusion hfalse

/-- C1 witness: a failing small-file copy that left a partial target is
fully cleaned up. -/
theorem C1_cleanup_on_failure_witness :
    (copyOne injSmallFail "md5" [1, 2, 3] emptyDest).1 = false ∧
    (noPartsUpTo (copyOne injSmallFail "md5" [1, 2, 3] emptyDest).2 ∧
     (∀ d, (copyOne injSmallFail "md5" [1, 2, 3] emptyDest).2.tgt = Option.some d →
       d.length = ([1, 2, 3] : List Nat).length) ∧
     (injSmallFail.hashTgtFail = false →
       (copyOne injSmallFail "md5" [1, 2, 3] emptyDest).2.tgt = Option.none)) :=
  ⟨by decide, C1_cleanup_on_failure injSmallFail "md5" [1, 2, 3] (by decide)⟩

/-- A schedule whose only failure is a same-length corruption of the
small-file copy. -/
def injCorrupt : Inj :=
  { injNone with smallCopy := .ok (Option.some [9, 9, 9]) }

/-- C4 counterexample: with `hash_check_enable` configured as `""` (or
as an unsupported algorithm), the constructor falls back to `'md5'`
rather than disabling hashing: a source hash is still computed, and a
corrupted destination is still failed (and removed) for a hash
mismatch, unlike a genuinely hash-free run. -/
theorem C4_counterexample :
    hashFuncOf ["md5", "sha256"] (Option.some "") = "md5" ∧
    hashFuncOf ["md5", "sha256"] (Option.some "crc999") = "md5" ∧
    getHashVal (hashFuncOf ["md5", "sha256"] (Option.some "")) [1, 2, 3] ≠
      Option.none ∧
    (copyOne injCorrupt (hashFuncOf ["md5", "sha256"] (Option.some ""))
      [1, 2, 3] emptyDest).1 = false ∧
    (copyOne injCorrupt (hashFuncOf ["md5", "sha256"] (Option.some ""))
      [1, 2, 3] emptyDest).2.tgt = Option.none ∧
    (copyOne injCorrupt "" [1, 2, 3] emptyDest).1 = true := by decide

/-- C4: when the configured algorithm is absent, empty, or unsupported,
the constructor selects `'md5'` (it does not skip hashing), and with
that algorithm `get_hash` computes a real hash of every file rather
than the empty string that would disable verification. -/
theorem C4_unsupported_falls_back_to_md5 (available : List String)
    (cfg : Option String)
    (h : ∀ s, cfg = Option.some s → s = "" ∨ available.contains s = false) :
    hashFuncOf available cfg = "md5" ∧
    ∀ content : List Nat,
      getHashVal (hashFuncOf available cfg) content = Option.some content := by
  have hmd5 : hashFuncOf available cfg = "md5" := by
    cases cfg with
    | none => rfl
    | some s =>
      rcases h s rfl with hs | hs
      · subst hs
        simp [hashFuncOf]
      · simp only [hashFuncOf]
        rw [hs, Bool.and_false]
        rfl
  refine ⟨hmd5, fun content => ?_⟩
  rw [hmd5]
  simp [getHashVal]

/-- C4 witness: the empty-string configuration over the availability
list `["md5", "sha256"]`. -/
theorem C4_unsupported_falls_back_to_md5_witness :
    (∀ s, (Option.some "" : Option String) = Option.some s →
      s = "" ∨ (["md5", "sha256"] : List String).contains s = false) ∧
    (hashFuncOf ["md5", "sha256"] (Option.some "") = "md5" ∧
     ∀ content : List Nat,
       getHashVal (hashFuncOf ["md5", "sha256"] (Option.some "")) content =
         Option.some content) := by
  have h : ∀ s, (Option.some "" : Option String) = Option.some s →
      s = "" ∨ (["md5", "sha256"] : List String).contains s = false := by
    intro s hs
    injection hs with hh
    exact Or.inl hh.symm
  exact ⟨h, C4_unsupported_falls_back_to_md5 ["md5", "sha256"] (Option.some "") h⟩

end Movefile

namespace Movefile

section ManualGrouping

/-!  ## `manual_grouping.py` (src/project_components/pyside6_plugins)

Shallow embedding of the strategy matcher.  Filenames, patterns and
constraint filters are `List Char`.  Notes on the embedding:

  * `Strategy` models the `contains` and `wildcard` strategy types; the
    `regex` type (whose semantics is an arbitrary Python regex) is
    outside the model and unused by the claims;
  * `fnmatch` character classes (`[...]`) are outside the modelled
    pattern grammar: `[` is treated as a literal character;
  * `_parse_constraints` protects `{...}` regions with placeholder
    strings before splitting on commas; the scanner `pcSplitGo` splits
    at the commas that lie outside the regions matched by
    `re.sub(r'\{[^}]*\}', ...)` (each region runs from a `{` to the
    first following `}`), which is the same decomposition for every
    input that does not itself contain the reserved placeholder text;
  * exceptions (`raise ValueError`) are `Except.error ()`;
  * `_validate_single_constraint` and `_is_valid_capture` implement the
    same predicate; both are embedded as `isValidCapture`.
-/

/-- Python `s.split(sep)` for a one-character separator. -/
def splitChar (sep : Char) : List Char → List (List Char)
  | [] => [[]]
  | c :: cs =>
    if c = sep then [] :: splitChar sep cs
    else
      match splitChar sep cs with
      | s :: ss => (c :: s) :: ss
      | [] => [[c]]

/-- Digit-run parser for Python `int`: digits with single underscores
between digits. -/
def pyIntGo : List Char → Nat → Option Nat
  | [], acc => Option.some acc
  | c :: rest, acc =>
    if isDigitChar c then pyIntGo rest (acc * 10 + (c.toNat - 48))
    else if c = '_' then
      match rest with
      | [] => Option.none
      | d :: rest2 =>
        if isDigitChar d then pyIntGo rest2 (acc * 10 + (d.toNat - 48))
        else Option.none
    else Option.none

/-- A non-empty digit group (first character must be a digit). -/
def pyIntCore : List Char → Option Nat
  | [] => Option.none
  | c :: rest => if isDigitChar c then pyIntGo rest (c.toNat - 48) else Option.none

/-- Python `int(s)`: surrounding whitespace, an optional sign, then a
digit group; `none` models `ValueError`. -/
def pyInt (s : List Char) : Option Int :=
  match trimChars s with
  | '+' :: rest => (pyIntCore rest).map (fun n => (n : Int))
  | '-' :: rest => (pyIntCore rest).map (fun n => -(n : Int))
  | t => (pyIntCore t).map (fun n => (n : Int))

/-- Python `s.isdigit()` (ASCII digits). -/
def capIsDigit (cap : List Char) : Bool := !cap.isEmpty && cap.all isDigitChar

/-- A parsed constraint dictionary from `_parse_single_constraint`. -/
inductive ConstraintD where
  | range (lo hi : Int)
  | values (vs : List (List Char))
  | exactNumber (v : Int)
  | exactString (v : List Char)
deriving DecidableEq

/-- `Strategy._parse_single_constraint` (lines 229-261). -/
def parseSingleConstraint (content : List Char) : ConstraintD :=
  if content.isEmpty then .exactString []
  else
    let tryRange : Option ConstraintD :=
      if content.contains '-' ∧ content.head? ≠ Option.some '-' then
        match splitChar '-' content with
        | [a, b] =>
          match pyInt a, pyInt b with
          | Option.some lo, Option.some hi => Option.some (.range lo hi)
          | _, _ => Option.none
        | _ => Option.none
      else Option.none
    match tryRange with
    | Option.some c => c
    | Option.none =>
      if content.contains ',' then
        .values ((splitChar ',' content).map trimChars)
      else
        match pyInt content with
        | Option.some v => .exactNumber v
        | Option.none => .exactString content

/-- Comma split of the constraint filter with `{...}` regions protected
(the placeholder trick of `_parse_constraints`, lines 184-202).  The
accumulator holds the current part reversed; every step consumes at
least one character, so `length + 1` fuel is always enough. -/
def pcSplitGo : Nat → List Char → List Char → List (List Char)
  | 0, _, cur => [cur.reverse]
  | Nat.succ f, cs, cur =>
    match cs with
    | [] => [cur.reverse]
    | c :: rest =>
      if c = ',' then cur.reverse :: pcSplitGo f rest []
      else if c = '{' ∧ rest.contains '}' then
        let content := rest.takeWhile (fun d => !(d = '}'))
        let rest2 := (rest.dropWhile (fun d => !(d = '}'))).drop 1
        pcSplitGo f rest2 ('}' :: (content.reverse ++ '{' :: cur))
      else pcSplitGo f rest (c :: cur)

/-- Top-level comma split of a constraint filter. -/
def pcSplit (l : List Char) : List (List Char) := pcSplitGo (l.length + 1) l []

/-- `Strategy._parse_constraints` (lines 170-227): split, strip, and
classify each part; an empty part becomes `None` (no constraint). -/
def parseConstraints (rf : List Char) : List (Option ConstraintD) :=
  if (trimChars rf).isEmpty then []
  else
    (pcSplit rf).map (fun part =>
      let p := trimChars part
      if p.isEmpty then Option.none
      else if p = ['{', '}'] then Option.some (.exactString [])
      else if p.head? = Option.some '{' ∧ p.getLast? = Option.some '}' then
        Option.some (parseSingleConstraint (p.drop 1).dropLast)
      else Option.some (.exactString p))

/-- `pattern.count('*')`. -/
def countStar (p : List Char) : Nat := p.count '*'

/-- `_is_valid_capture` / `_validate_single_constraint`: whether one
captured string satisfies one (optional) constraint. -/
def isValidCapture (cap : List Char) : Option ConstraintD → Bool
  | Option.none => true
  | Option.some (.exactString v) => decide (cap = v)
  | Option.some (.range lo hi) =>
    capIsDigit cap && decide (lo ≤ (digitsToNat cap : Int) ∧ (digitsToNat cap : Int) ≤ hi)
  | Option.some (.exactNumber v) => capIsDigit cap && decide ((digitsToNat cap : Int) = v)
  | Option.some (.values vs) => vs.contains cap

/-- `_validate_constraints` (lines 655-676): positions are padded with
`""` captures and `None` constraints up to the longer length. -/
def validateConstraints (caps : List (List Char))
    (cs : List (Option ConstraintD)) : Bool :=
  if cs.isEmpty then true
  else (List.range (max caps.length cs.length)).all
    (fun i => isValidCapture (caps.getD i []) (cs.getD i Option.none))

/-- One element of the capture regex built by `_build_capture_pattern`:
a literal (escaped) character, or a `([^.]*)` capture group, greedy for
the last `*` and lazy (`([^.]*?)`) otherwise. -/
inductive CapItem where
  | lit (c : Char)
  | star (greedy : Bool)

/-- `_build_capture_pattern` (lines 263-302), as the item list of the
produced regex; `k` is the total `*` count and `seen` the number
already emitted. -/
def buildCaptureGo (k : Nat) : Nat → List Char → List CapItem
  | _, [] => []
  | seen, c :: rest =>
    if c = '*' then .star (seen + 1 = k) :: buildCaptureGo k (seen + 1) rest
    else .lit c :: buildCaptureGo k seen rest

/-- The capture items of a wildcard pattern. -/
def buildCaptureItems (p : List Char) : List CapItem :=
  buildCaptureGo (countStar p) 0 p

/-- Backtracking matcher for the capture regex under `re.match`
semantics: anchored at the start, the tail of the filename
unconstrained, lazy groups try shorter captures first and greedy groups
longer ones, and `[^.]*` never captures a dot.  Returns the groups of
the first match found.  One fuel unit is spent per item, so
`items.length + 1` fuel is always enough. -/
def capMatch : Nat → List CapItem → List Char → Option (List (List Char))
  | 0, _, _ => Option.none
  | Nat.succ f, items, fs =>
    match items with
    | [] => Option.some []
    | .lit c :: rest =>
      match fs with
      | [] => Option.none
      | d :: fs2 => if c = d then capMatch f rest fs2 else Option.none
    | .star g :: rest =>
      let L := (fs.takeWhile (fun c => !(c = '.'))).length
      let lens := if g then (List.range (L + 1)).reverse else List.range (L + 1)
      lens.findSome? (fun l =>
        (capMatch f rest (fs.drop l)).map (fun caps => fs.take l :: caps))

/-- One element of `_parse_wildcard_pattern`: a `*` or a fixed run. -/
inductive WPart where
  | star
  | fixed (s : List Char)

/-- `_parse_wildcard_pattern` (lines 454-482). -/
def parseWildcardPattern : List Char → List WPart
  | [] => []
  | c :: rest =>
    if c = '*' then .star :: parseWildcardPattern rest
    else
      match parseWildcardPattern rest with
      | .fixed s :: t => .fixed (c :: s) :: t
      | t => .fixed [c] :: t

/-- Total length of the fixed parts (`remaining_fixed_len`). -/
def remFixedLen : List WPart → Nat
  | [] => 0
  | .star :: rest => remFixedLen rest
  | .fixed s :: rest => s.length + remFixedLen rest

/-- The `backtrack` closure of `_universal_dp_match` (lines 532-607),
on the remaining text instead of a position.  A wildcard tries capture
lengths `0..max` in order, skipping lengths whose capture violates a
present constraint; a fixed part must match exactly.  One fuel unit is
spent per part, so `parts.length + 1` fuel is always enough. -/
def dpBacktrack : Nat → List WPart → List Char → List (List Char) →
    List (Option ConstraintD) → Nat → Option (List (List Char))
  | 0, _, _, _, _, _ => Option.none
  | Nat.succ f, parts, t, caps, cs, k =>
    match parts with
    | [] =>
      if t.isEmpty then
        (if caps.length = k then Option.some caps else Option.none)
      else Option.none
    | .star :: rest =>
      let widx := caps.length
      let maxLen := t.length - remFixedLen rest
      (List.range (maxLen + 1)).findSome? (fun l =>
        let cap := t.take l
        if widx < cs.length ∧ ¬isValidCapture cap (cs.getD widx Option.none) = true then
          Option.none
        else dpBacktrack f rest (t.drop l) (caps ++ [cap]) cs k)
    | .fixed s :: rest =>
      if t.take s.length = s then dpBacktrack f rest (t.drop s.length) caps cs k
      else Option.none

/-- The pattern from its first `*` through its last `*`
(`pattern_for_middle`, lines 436-446). -/
def stripToStars (p : List Char) : List Char :=
  if p.contains '*' then
    ((p.dropWhile (fun c => !(c = '*'))).reverse.dropWhile
      (fun c => !(c = '*'))).reverse
  else p

/-- `_dp_wildcard_match` (lines 419-452). -/
def dpWildcardMatch (p : List Char) (text : List Char)
    (cs : List (Option ConstraintD)) (k : Nat) : Option (List (List Char)) :=
  if k = 0 then (if text.isEmpty then Option.some [] else Option.none)
  else if text.isEmpty then
    (if cs.all (fun c => isValidCapture [] c) then
      Option.some (List.replicate k []) else Option.none)
  else
    let parts := parseWildcardPattern (stripToStars p)
    dpBacktrack (parts.length + 1) parts text [] cs k

/-- `_validate_consecutive_wildcards` (lines 370-417): strip the fixed
prefix and suffix, run the DP matcher on the middle, then validate. -/
def validateConsecutive (p : List Char) (cs : List (Option ConstraintD))
    (fn : List Char) : Bool :=
  if cs.isEmpty then true
  else
    let k := countStar p
    let pfx := p.takeWhile (fun c => !(c = '*'))
    let sfx := (p.reverse.takeWhile (fun c => !(c = '*'))).reverse
    if !pfx.isEmpty ∧ ¬fn.take pfx.length = pfx then false
    else if !sfx.isEmpty ∧ ¬fn.drop (fn.length - sfx.length) = sfx then false
    else
      let middle0 := fn.drop pfx.length
      let middle := if !sfx.isEmpty then middle0.take (middle0.length - sfx.length)
        else middle0
      match dpWildcardMatch p middle cs k with
      | Option.none => false
      | Option.some caps => validateConstraints caps cs

/-- `_parse_wildcard_with_constraints` (lines 126-168), reached only
with a non-blank filter: re-parse the constraints, raise on a count
mismatch, then dispatch on `'**' in pattern`. -/
def wildcardConstrainedMatch (p rf fn : List Char) : Except Unit Bool :=
  let cs := parseConstraints rf
  let k := countStar p
  if cs.length ≠ k then .error ()
  else if decide (['*', '*'] <:+: p) then .ok (validateConsecutive p cs fn)
  else if p.isEmpty then .ok true
  else
    match capMatch (p.length + 1) (buildCaptureItems p) fn with
    | Option.none => .ok false
    | Option.some caps => .ok (validateConstraints caps cs)

/-- Full-string glob match (`fnmatch.translate` + anchored `re.match`):
`*` matches any run including dots, `?` any single character, other
characters themselves.  Each step consumes a pattern or text character,
so `p.length + t.length + 1` fuel is always enough. -/
def globMatchGo : Nat → List Char → List Char → Bool
  | 0, _, _ => false
  | Nat.succ f, ps, t =>
    match ps with
    | [] => t.isEmpty
    | c :: pr =>
      if c = '*' then
        globMatchGo f pr t ||
          (match t with
           | [] => false
           | _ :: tr => globMatchGo f ps tr)
      else
        match t with
        | [] => false
        | d :: tr => (c = '?' || c = d) && globMatchGo f pr tr

/-- `fnmatch`-style match of a whole filename against a pattern. -/
def globMatch (p fn : List Char) : Bool :=
  globMatchGo (p.length + fn.length + 1) p fn

/-- A matching strategy (the `regex` type is outside the model). -/
inductive Strategy where
  | contains (pattern : List Char)
  | wildcard (pattern : List Char) (rangeFilter : List Char)

/-- `Strategy.__post_init__` (lines 100-124) for the modelled types:
construction succeeds iff, for a wildcard with a non-blank filter, the
number of parsed constraint entries equals the `*` count. -/
def strategyPostInitOk : Strategy → Bool
  | .contains _ => true
  | .wildcard p rf =>
    if (trimChars rf).isEmpty then true
    else decide ((parseConstraints rf).length = countStar p)

/-- `Strategy.matches` (lines 715-729); `Except.error ()` is the
`ValueError` that `_parse_wildcard_with_constraints` can raise. -/
def strategyMatchesE : Strategy → List Char → Except Unit Bool
  | .contains pat, fn => .ok (decide (pat <:+: fn))
  | .wildcard p rf, fn =>
    if (trimChars rf).isEmpty then .ok (globMatch p fn)
    else wildcardConstrainedMatch p rf fn

/-- A strategy group: a name and an AND-combined strategy list. -/
structure StrategyGroup where
  group_name : List Char
  strategies : List Strategy

/-- Python `all(strategy.matches(filename) for ...)`: short-circuit,
propagating exceptions. -/
def allMatchE : List Strategy → List Char → Except Unit Bool
  | [], _ => .ok true
  | s :: rest, fn =>
    match strategyMatchesE s fn with
    | .error e => .error e
    | .ok false => .ok false
    | .ok true => allMatchE rest fn

/-- `StrategyGroup.matches` (lines 737-741): an empty strategy list
never matches. -/
def groupMatchesE (g : StrategyGroup) (fn : List Char) : Except Unit Bool :=
  if g.strategies.isEmpty then .ok false
  else allMatchE g.strategies fn

/-- `os.path.basename`: everything after the last `/`. -/
def basename (p : List Char) : List Char :=
  ((splitSlash p).getLast?).getD []

/-- The names of the groups that match, in configuration order and with
duplicates (the loop of `manual_grouping`, lines 923-925, before the
set is formed). -/
def matchedNames : List StrategyGroup → List Char → Except Unit (List (List Char))
  | [], _ => .ok []
  | g :: rest, fn =>
    match groupMatchesE g fn with
    | .error e => .error e
    | .ok b =>
      match matchedNames rest fn with
      | .error e => .error e
      | .ok ns => .ok (if b then g.group_name :: ns else ns)

/-- `manual_grouping` (lines 871-927) as a relation: `out` is a
possible return value.  `list(set(...))` enumerates a hash set, whose
order is arbitrary (string hashing is randomized per process), so the
implementation guarantees exactly: some duplicate-free enumeration of
the set of matching group names. -/
def mgResultOk (groups : List StrategyGroup) (filepath : List Char)
    (out : List (List Char)) : Prop :=
  if groups.isEmpty then out = []
  else ∃ mn, matchedNames groups (basename filepath) = Except.ok mn ∧
    out.Nodup ∧ ∀ x, x ∈ out ↔ x ∈ mn

/-- Modelled from the spec: deduplication keeping the first occurrence
of each name, preserving insertion order. -/
def dedupFirstGo (seen : List (List Char)) : List (List Char) → List (List Char)
  | [] => []
  | x :: rest =>
    if seen.contains x then dedupFirstGo seen rest
    else x :: dedupFirstGo (x :: seen) rest

/-- Modelled from the spec: the insertion-ordered deduplicated list. -/
def dedupFirst (l : List (List Char)) : List (List Char) := dedupFirstGo [] l

/-- Equality of modelled match results is decidable. -/
instance exceptUnitDecEq {α : Type} [DecidableEq α] : DecidableEq (Except Unit α) :=
  fun a b =>
    match a, b with
    | .error e, .error f => isTrue (by cases e; cases f; rfl)
    | .ok x, .ok y =>
      if h : x = y then isTrue (by rw [h])
      else isFalse (fun hh => h (Except.ok.inj hh))
    | .error _, .ok _ => isFalse (fun hh => Except.noConfusion hh)
    | .ok _, .error _ => isFalse (fun hh => Except.noConfusion hh)

end ManualGrouping

end Movefile

namespace Movefile

theorem containsList_iff (l : List (List Char)) (a : List Char) :
    l.contains a = true ↔ a ∈ l := by
  simp [List.contains_eq_any_beq]

/-- Membership in the first-occurrence deduplication. -/
theorem dedupFirstGo_mem (l : List (List Char)) :
    ∀ (seen : List (List Char)) (x : List Char),
      x ∈ dedupFirstGo seen l ↔ (x ∈ l ∧ x ∉ seen) := by
  induction l with
  | nil => intro seen x; simp [dedupFirstGo]
  | cons y rest ih =>
    intro seen x
    show x ∈ (if seen.contains y then dedupFirstGo seen rest
      else y :: dedupFirstGo (y :: seen) rest) ↔ _
    by_cases hy : y ∈ seen
    · rw [if_pos ((containsList_iff seen y).mpr hy), ih]
      constructor
      · rintro ⟨hr, hs⟩
        exact ⟨List.mem_cons_of_mem y hr, hs⟩
      · rintro ⟨hc, hs⟩
        rcases List.mem_cons.mp hc with rfl | hr
        · exact absurd hy hs
        · exact ⟨hr, hs⟩
    · rw [if_neg (fun hc => hy ((containsList_iff seen y).mp hc))]
      constructor
      · intro hc
        rcases List.mem_cons.mp hc with rfl | hr
        · exact ⟨List.mem_cons_self x rest, hy⟩
        · obtain ⟨hrest, hns⟩ := (ih (y :: seen) x).mp hr
          have hxy : x ≠ y := fun hh => hns (hh ▸ List.mem_cons_self y seen)
          exact ⟨List.mem_cons_of_mem y hrest,
            fun hs => hns (List.mem_cons_of_mem y hs)⟩
      · rintro ⟨hc, hs⟩
        rcases List.mem_cons.mp hc with rfl | hr
        · exact List.mem_cons_self x _
        · by_cases hxy : x = y
          · exact hxy ▸ List.mem_cons_self y _
          · refine List.mem_cons_of_mem y ((ih (y :: seen) x).mpr ⟨hr, ?_⟩)
            intro hc2
            rcases List.mem_cons.mp hc2 with h1 | h2
            · exact hxy h1
            · exact hs h2

/-- The first-occurrence deduplication has no duplicates. -/
theorem dedupFirstGo_nodup (l : List (List Char)) :
    ∀ seen : List (List Char), (dedupFirstGo seen l).Nodup := by
  induction l with
  | nil => intro seen; exact List.nodup_nil
  | cons y rest ih =>
    intro seen
    show (if seen.contains y then dedupFirstGo seen rest
      else y :: dedupFirstGo (y :: seen) rest).Nodup
    by_cases hy : seen.contains y = true
    · rw [if_pos hy]; exact ih seen
    · rw [if_neg hy]
      refine List.nodup_cons.mpr ⟨?_, ih (y :: seen)⟩
      intro hmem
      exact ((dedupFirstGo_mem rest (y :: seen) y).mp hmem).2
        (List.mem_cons_self y seen)

/-- Every name in a successful `matchedNames` run comes from a matching
group. -/
theorem matchedNames_mem :
    ∀ (groups : List StrategyGroup) (fn : List Char) (mn : List (List Char)),
      matchedNames groups fn = .ok mn →
      ∀ x ∈ mn, ∃ g ∈ groups, g.group_name = x ∧
        groupMatchesE g fn = .ok true := by
  intro groups
  induction groups with
  | nil =>
    intro fn mn h x hx
    simp only [matchedNames] at h
    injection h with h
    subst h
    exact absurd hx (List.not_mem_nil x)
  | cons g rest ih =>
    intro fn mn h x hx
    simp only [matchedNames] at h
    cases hg : groupMatchesE g fn with
    | error e => rw [hg] at h; exact Except.noConfusion h
    | ok b =>
      rw [hg] at h
      dsimp only at h
      cases hr : matchedNames rest fn with
      | error e => rw [hr] at h; exact Except.noConfusion h
      | ok ns =>
        rw [hr] at h
        dsimp only at h
        injection h with h
        subst h
        cases b with
        | true =>
          rcases List.mem_cons.mp hx with rfl | hmem
          · exact ⟨g, List.mem_cons_self g rest, rfl, hg⟩
          · obtain ⟨g2, hg2, hn2, hm2⟩ := ih fn ns hr x hmem
            exact ⟨g2, List.mem_cons_of_mem g hg2, hn2, hm2⟩
        | false =>
          obtain ⟨g2, hg2, hn2, hm2⟩ := ih fn ns hr x hx
          exact ⟨g2, List.mem_cons_of_mem g hg2, hn2, hm2⟩

/-- C7 counterexample: the pattern `DSC*_*` has two `*`s; the filter
`,{ME}` parses to two entries of which only one is non-empty.  The
claim's criterion (non-empty entries = `*` count) says this pair is
rejected, but construction succeeds, and the empty first entry leaves
the first wildcard unconstrained; conversely `DSC*` (one `*`, equal to
the non-empty count) is rejected at construction. -/
theorem C7_counterexample :
    countStar ['D', 'S', 'C', '*', '_', '*'] = 2 ∧
    (parseConstraints [',', '{', 'M', 'E', '}']).length = 2 ∧
    ((parseConstraints [',', '{', 'M', 'E', '}']).filter
      (fun c => c.isSome)).length = 1 ∧
    strategyPostInitOk (.wildcard ['D', 'S', 'C', '*', '_', '*']
      [',', '{', 'M', 'E', '}']) = true ∧
    countStar ['D', 'S', 'C', '*'] = 1 ∧
    strategyPostInitOk (.wildcard ['D', 'S', 'C', '*']
      [',', '{', 'M', 'E', '}']) = false ∧
    strategyMatchesE (.wildcard ['D', 'S', 'C', '*', '_', '*']
      [',', '{', 'M', 'E', '}'])
      ['D', 'S', 'C', 'f', 'o', 'o', '_', 'M', 'E'] = .ok true ∧
    strategyMatchesE (.wildcard ['D', 'S', 'C', '*', '_', '*']
      [',', '{', 'M', 'E', '}'])
      ['D', 'S', 'C', '1', '2', '3', '_', 'M', 'E'] = .ok true ∧
    strategyMatchesE (.wildcard ['D', 'S', 'C', '*', '_', '*']
      [',', '{', 'M', 'E', '}'])
      ['D', 'S', 'C', 'f', 'o', 'o', '_', 'X', 'X'] = .ok false := by
  decide

/-- C7: construction of a wildcard strategy with a non-blank filter
succeeds iff the TOTAL number of parsed constraint entries (empty
positions included) equals the `*` count; a strategy that passed
construction never raises at match time; and empty entries impose no
constraint (the validation result depends only on the captures at
non-empty constraint positions). -/
theorem C7_constraint_count_semantics :
    (∀ p rf, ¬(trimChars rf).isEmpty = true →
      (strategyPostInitOk (.wildcard p rf) = true ↔
        (parseConstraints rf).length = countStar p)) ∧
    (∀ s fn, strategyPostInitOk s = true →
      ∃ b, strategyMatchesE s fn = .ok b) ∧
    (∀ caps caps2 cs, caps.length = caps2.length →
      (∀ i ∈ List.range cs.length,
        cs.getD i Option.none ≠ Option.none → caps.getD i [] = caps2.getD i []) →
      validateConstraints caps cs = validateConstraints caps2 cs) := by
  refine ⟨?_, ?_, ?_⟩
  · intro p rf hrf
    show (if (trimChars rf).isEmpty then true
      else decide ((parseConstraints rf).length = countStar p)) = true ↔ _
    rw [if_neg hrf]
    exact decide_eq_true_iff
  · intro s fn hok
    cases s with
    | contains pat => exact ⟨decide (pat <:+: fn), rfl⟩
    | wildcard p rf =>
      show ∃ b, (if (trimChars rf).isEmpty then Except.ok (globMatch p fn)
        else wildcardConstrainedMatch p rf fn) = .ok b
      by_cases hrf : (trimChars rf).isEmpty = true
      · rw [if_pos hrf]
        exact ⟨globMatch p fn, rfl⟩
      · rw [if_neg hrf]
        have hlen : (parseConstraints rf).length = countStar p := by
          have : (if (trimChars rf).isEmpty then true
            else decide ((parseConstraints rf).length = countStar p)) = true := hok
          rw [if_neg hrf] at this
          exact of_decide_eq_true this
        show ∃ b, (if (parseConstraints rf).length ≠ countStar p then Except.error ()
          else if decide (['*', '*'] <:+: p) then
            Except.ok (validateConsecutive p (parseConstraints rf) fn)
          else if p.isEmpty then Except.ok true
          else match capMatch (p.length + 1) (buildCaptureItems p) fn with
            | Option.none => Except.ok false
            | Option.some caps =>
              Except.ok (validateConstraints caps (parseConstraints rf))) = .ok b
        rw [if_neg (fun hc => hc hlen)]
        by_cases h2 : decide (['*', '*'] <:+: p) = true
        · rw [if_pos h2]
          exact ⟨_, rfl⟩
        · rw [if_neg h2]
          by_cases h3 : p.isEmpty = true
          · rw [if_pos h3]
            exact ⟨true, rfl⟩
          · rw [if_neg h3]
            cases hm : capMatch (p.length + 1) (buildCaptureItems p) fn with
            | none => exact ⟨false, rfl⟩
            | some caps => exact ⟨_, rfl⟩
  · intro caps caps2 cs hlen hpt
    show (if cs.isEmpty then true
      else (List.range (max caps.length cs.length)).all
        (fun i => isValidCapture (caps.getD i []) (cs.getD i Option.none))) =
      (if cs.isEmpty then true
      else (List.range (max caps2.length cs.length)).all
        (fun i => isValidCapture (caps2.getD i []) (cs.getD i Option.none)))
    by_cases hcs : cs.isEmpty = true
    · rw [if_pos hcs, if_pos hcs]
    · rw [if_neg hcs, if_neg hcs, hlen]
      rw [Bool.eq_iff_iff, List.all_eq_true, List.all_eq_true]
      constructor <;> intro h i hi
      · cases hc : cs.getD i Option.none with
        | none => simp [isValidCapture]
        | some c =>
          have hcap : caps.getD i [] = caps2.getD i [] := by
            by_cases hin : i < cs.length
            · exact hpt i (List.mem_range.mpr hin)
                (by rw [hc]; exact fun hh => Option.noConfusion hh)
            · have hd : cs.getD i Option.none = Option.none :=
                List.getD_eq_default cs Option.none (by omega)
              rw [hc] at hd
              exact Option.noConfusion hd
          have := h i hi
          rw [hc] at this
          rw [← hcap]
          exact this
      · cases hc : cs.getD i Option.none with
        | none => simp [isValidCapture]
        | some c =>
          have hcap : caps.getD i [] = caps2.getD i [] := by
            by_cases hin : i < cs.length
            · exact hpt i (List.mem_range.mpr hin)
                (by rw [hc]; exact fun hh => Option.noConfusion hh)
            · have hd : cs.getD i Option.none = Option.none :=
                List.getD_eq_default cs Option.none (by omega)
              rw [hc] at hd
              exact Option.noConfusion hd
          have := h i hi
          rw [hc] at this
          rw [hcap]
          exact this

/-- C7 witness: the accepted two-star strategy of the counterexample
instantiates all three parts. -/
theorem C7_constraint_count_semantics_witness :
    (¬(trimChars [',', '{', 'M', 'E', '}']).isEmpty = true ∧
      (strategyPostInitOk (.wildcard ['D', 'S', 'C', '*', '_', '*']
        [',', '{', 'M', 'E', '}']) = true ↔
        (parseConstraints [',', '{', 'M', 'E', '}']).length =
          countStar ['D', 'S', 'C', '*', '_', '*'])) ∧
    (strategyPostInitOk (.wildcard ['D', 'S', 'C', '*', '_', '*']
        [',', '{', 'M', 'E', '}']) = true ∧
      ∃ b, strategyMatchesE (.wildcard ['D', 'S', 'C', '*', '_', '*']
        [',', '{', 'M', 'E', '}']) ['D', 'S', 'C'] = .ok b) ∧
    validateConstraints [['a'], ['M', 'E']]
        [Option.none, Option.some (.exactString ['M', 'E'])] =
      validateConstraints [['b'], ['M', 'E']]
        [Option.none, Option.some (.exactString ['M', 'E'])] :=
  ⟨⟨by decide, C7_constraint_count_semantics.1 _ _ (by decide)⟩,
   ⟨by decide, C7_constraint_count_semantics.2.1 _ _ (by decide)⟩,
   C7_constraint_count_semantics.2.2 _ _ _ (by decide) (by decide)⟩

/-- The group whose name is `b`. -/
def grpB : StrategyGroup := ⟨['b'], [.contains ['x']]⟩

/-- The group whose name is `a`. -/
def grpA : StrategyGroup := ⟨['a'], [.contains ['x']]⟩

/-- C8 counterexample: with groups configured in the order `b`, `a` and
both matching the file `x`, the insertion-ordered deduplicated result
is `[b, a]`, but `["a", "b"]` is also a possible return value of
`manual_grouping` (the result of `list(set(...))` under another string
hash seed), so the function does not return the insertion-ordered
list. -/
theorem C8_counterexample :
    mgResultOk [grpB, grpA] ['x'] [['a'], ['b']] ∧
    matchedNames [grpB, grpA] (basename ['x']) = .ok [['b'], ['a']] ∧
    dedupFirst [['b'], ['a']] = [['b'], ['a']] ∧
    ([['a'], ['b']] : List (List Char)) ≠ [['b'], ['a']] := by
  refine ⟨?_, by decide, by decide, by decide⟩
  show ∃ mn, matchedNames [grpB, grpA] (basename ['x']) = Except.ok mn ∧
    ([['a'], ['b']] : List (List Char)).Nodup ∧
    ∀ x, x ∈ ([['a'], ['b']] : List (List Char)) ↔ x ∈ mn
  refine ⟨[['b'], ['a']], by decide, by decide, ?_⟩
  intro x
  simp only [List.mem_cons, List.not_mem_nil, or_false]
  exact Or.comm

/-- C8: what the implementation guarantees is weaker than the claim:
every possible return value of `manual_grouping` is a permutation of
the insertion-ordered deduplicated list of matching group names (each
matching name exactly once, no other names), with the order arbitrary. -/
theorem C8_result_permutes_ordered_dedup (groups : List StrategyGroup)
    (filepath : List Char) (out mn : List (List Char))
    (hok : mgResultOk groups filepath out)
    (hmn : matchedNames groups (basename filepath) = .ok mn) :
    out.Perm (dedupFirst mn) := by
  by_cases hg : groups.isEmpty = true
  · have hgr : groups = [] := List.isEmpty_iff.mp hg
    subst hgr
    have hout : out = [] := hok
    have hmn0 : mn = [] := by
      simp only [matchedNames] at hmn
      injection hmn with h
      exact h.symm
    rw [hout, hmn0]
    exact List.Perm.refl _
  · have hok2 : ∃ mn2, matchedNames groups (basename filepath) = Except.ok mn2 ∧
        out.Nodup ∧ ∀ x, x ∈ out ↔ x ∈ mn2 := by
      have : (if groups.isEmpty then out = []
        else ∃ mn2, matchedNames groups (basename filepath) = Except.ok mn2 ∧
          out.Nodup ∧ ∀ x, x ∈ out ↔ x ∈ mn2) := hok
      rw [if_neg hg] at this
      exact this
    obtain ⟨mn2, hmn2, hnd, hmem⟩ := hok2
    rw [hmn] at hmn2
    injection hmn2 with hmn2
    subst hmn2
    refine (List.perm_ext_iff_of_nodup hnd (dedupFirstGo_nodup mn [])).mpr ?_
    intro a
    rw [hmem a]
    show a ∈ mn ↔ a ∈ dedupFirstGo [] mn
    rw [dedupFirstGo_mem mn [] a]
    simp

/-- C8 witness: the configuration of the counterexample, with the
alternative enumeration `["a", "b"]`. -/
theorem C8_result_permutes_ordered_dedup_witness :
    (mgResultOk [grpB, grpA] ['x'] [['a'], ['b']] ∧
      matchedNames [grpB, grpA] (basename ['x']) = .ok [['b'], ['a']]) ∧
    ([['a'], ['b']] : List (List Char)).Perm (dedupFirst [['b'], ['a']]) := by
  have hok : mgResultOk [grpB, grpA] ['x'] [['a'], ['b']] := by
    show ∃ mn, matchedNames [grpB, grpA] (basename ['x']) = Except.ok mn ∧
      ([['a'], ['b']] : List (List Char)).Nodup ∧
      ∀ x, x ∈ ([['a'], ['b']] : List (List Char)) ↔ x ∈ mn
    refine ⟨[['b'], ['a']], by decide, by decide, ?_⟩
    intro x
    simp only [List.mem_cons, List.not_mem_nil, or_false]
    exact Or.comm
  exact ⟨⟨hok, by decide⟩,
    C8_result_permutes_ordered_dedup [grpB, grpA] ['x'] _ _ hok (by decide)⟩

/-- C10: a group with an empty strategy list returns `False` from
`matches` (the empty conjunction is not vacuously true), and every name
in any possible `manual_grouping` result comes from a group with a
non-empty strategy list that matched the file's basename. -/
theorem C10_empty_group_never_matches :
    (∀ (g : StrategyGroup) (fn : List Char), g.strategies = [] →
      groupMatchesE g fn = .ok false) ∧
    (∀ (groups : List StrategyGroup) (filepath : List Char)
        (out : List (List Char)), mgResultOk groups filepath out →
      ∀ x ∈ out, ∃ g ∈ groups, g.group_name = x ∧ g.strategies ≠ [] ∧
        groupMatchesE g (basename filepath) = .ok true) := by
  constructor
  · intro g fn hs
    show (if g.strategies.isEmpty then Except.ok false
      else allMatchE g.strategies fn) = .ok false
    rw [if_pos (List.isEmpty_iff.mpr hs)]
  · intro groups filepath out hok x hx
    by_cases hg : groups.isEmpty = true
    · have : out = [] := by
        have h2 : (if groups.isEmpty then out = []
          else ∃ mn, matchedNames groups (basename filepath) = Except.ok mn ∧
            out.Nodup ∧ ∀ y, y ∈ out ↔ y ∈ mn) := hok
        rw [if_pos hg] at h2
        exact h2
      rw [this] at hx
      exact absurd hx (List.not_mem_nil x)
    · have h2 : ∃ mn, matchedNames groups (basename filepath) = Except.ok mn ∧
          out.Nodup ∧ ∀ y, y ∈ out ↔ y ∈ mn := by
        have h3 : (if groups.isEmpty then out = []
          else ∃ mn, matchedNames groups (basename filepath) = Except.ok mn ∧
            out.Nodup ∧ ∀ y, y ∈ out ↔ y ∈ mn) := hok
        rw [if_neg hg] at h3
        exact h3
      obtain ⟨mn, hmn, _, hmem⟩ := h2
      obtain ⟨g, hgin, hname, hmatch⟩ :=
        matchedNames_mem groups (basename filepath) mn hmn x ((hmem x).mp hx)
      refine ⟨g, hgin, hname, ?_, hmatch⟩
      intro hemp
      have : groupMatchesE g (basename filepath) = .ok false := by
        show (if g.strategies.isEmpty then Except.ok false
          else allMatchE g.strategies (basename filepath)) = .ok false
        rw [if_pos (List.isEmpty_iff.mpr hemp)]
      rw [this] at hmatch
      injection hmatch with hb
      exact Bool.noConfusion hb

/-- C10 witness: a configuration with an empty group and a matching
non-empty group. -/
theorem C10_empty_group_never_matches_witness :
    (groupMatchesE ⟨['e'], []⟩ ['f'] = .ok false) ∧
    (mgResultOk [⟨['e'], []⟩, grpB] ['x'] [['b']] ∧
      ∀ x ∈ ([['b']] : List (List Char)),
        ∃ g ∈ [(⟨['e'], []⟩ : StrategyGroup), grpB], g.group_name = x ∧
          g.strategies ≠ [] ∧ groupMatchesE g (basename ['x']) = .ok true) := by
  have hok : mgResultOk [⟨['e'], []⟩, grpB] ['x'] [['b']] := by
    show ∃ mn, matchedNames [⟨['e'], []⟩, grpB] (basename ['x']) = Except.ok mn ∧
      ([['b']] : List (List Char)).Nodup ∧
      ∀ x, x ∈ ([['b']] : List (List Char)) ↔ x ∈ mn
    exact ⟨[['b']], by decide, by decide, fun x => Iff.rfl⟩
  exact ⟨C10_empty_group_never_matches.1 ⟨['e'], []⟩ ['f'] rfl,
    hok, C10_empty_group_never_matches.2 _ ['x'] _ hok⟩

end Movefile

namespace Movefile

section AllocatorPlugins

/-!  ## `Allocator.update_template` and plugin load/unload
(allocator.py:761-880)

State model: `availableVariables` is the `available_variables` dict as
an association list in insertion order (plugin name ↦ names of the
variables it declares); `loadedPlugins` the keys of `loaded_plugins`;
`deleteCalls`/`initCalls` log the invocations of the plugins' delete
and init hooks (every plugin is modelled as registering both).  The
`plugins_to_unload`/`plugins_to_load` sets are iterated in dict order;
set iteration order only affects the order of the log lists, which no
theorem relies on. -/

/-- Allocator state relevant to template updates. -/
@[ext]
structure AllocState where
  availableVariables : List (String × List String)
  loadedPlugins : List String
  currentTemplate : List Char
  activeVariables : Finset String
  deleteCalls : List String
  initCalls : List String

/-- `_unload_plugins_for_variables`, marking phase (lines 845-860): a
plugin is marked when some requested variable is declared by it and no
OTHER variable of `self.active_variables` (the set from BEFORE the
update) is also declared by it. -/
def unloadMarks (avail : List (String × List String))
    (vars active : Finset String) : List String :=
  avail.filterMap (fun e =>
    if ∃ v ∈ vars, v ∈ e.2 ∧ ¬∃ w ∈ active, w ≠ v ∧ w ∈ e.2 then
      Option.some e.1
    else Option.none)

/-- `_load_plugins_for_variables`, marking phase (lines 823-830). -/
def loadMarks (avail : List (String × List String))
    (vars : Finset String) : List String :=
  avail.filterMap (fun e =>
    if ∃ v ∈ vars, v ∈ e.2 then Option.some e.1 else Option.none)

/-- Unload phase (lines 863-880): for each marked plugin that is
loaded, call its delete hook and remove it. -/
def unloadStep (marks : List String) (st : List String × List String) :
    List String × List String :=
  marks.foldl (fun st p =>
    if st.1.contains p then (st.1.filter (fun q => !(q = p)), st.2 ++ [p])
    else st) st

/-- Load phase (lines 833-841): for each marked plugin not yet loaded,
load it and call its init hook. -/
def loadStep (marks : List String) (st : List String × List String) :
    List String × List String :=
  marks.foldl (fun st p =>
    if st.1.contains p then st else (st.1 ++ [p], st.2 ++ [p])) st

/-- `Allocator.update_template` (lines 761-819): diff the old and new
variable sets, unload then load, then update the template and the
active set. -/
def update_template (s : AllocState) (t : List Char) : AllocState :=
  let oldVars := if s.currentTemplate.isEmpty then (∅ : Finset String)
    else parse_template_variables s.currentTemplate
  let newVars := parse_template_variables t
  let u := unloadStep (unloadMarks s.availableVariables (oldVars \ newVars)
    s.activeVariables) (s.loadedPlugins, s.deleteCalls)
  let l := loadStep (loadMarks s.availableVariables (newVars \ oldVars))
    (u.1, s.initCalls)
  { s with
    loadedPlugins := l.1
    deleteCalls := u.2
    initCalls := l.2
    currentTemplate := t
    activeVariables := newVars }

end AllocatorPlugins

end Movefile

namespace Movefile

theorem parse_template_variables_nil : parse_template_variables [] = ∅ := by decide

theorem unloadMarks_empty (avail : List (String × List String))
    (active : Finset String) : unloadMarks avail ∅ active = [] := by
  induction avail with
  | nil => rfl
  | cons e rest ih =>
    show (if ∃ v ∈ (∅ : Finset String), v ∈ e.2 ∧
        ¬∃ w ∈ active, w ≠ v ∧ w ∈ e.2 then Option.some e.1
      else Option.none).toList ++ unloadMarks rest ∅ active = []
    rw [if_neg (by simp), ih]
    rfl

theorem loadMarks_empty (avail : List (String × List String)) :
    loadMarks avail ∅ = [] := by
  induction avail with
  | nil => rfl
  | cons e rest ih =>
    show (if ∃ v ∈ (∅ : Finset String), v ∈ e.2 then Option.some e.1
      else Option.none).toList ++ loadMarks rest ∅ = []
    rw [if_neg (by simp), ih]
    rfl

/-- The unload phase leaves the loaded set and the delete log untouched
at every plugin that is not marked. -/
theorem unloadStep_not_marked (p : String) :
    ∀ (marks : List String) (st : List String × List String), p ∉ marks →
      ((p ∈ (unloadStep marks st).1 ↔ p ∈ st.1) ∧
       (p ∈ (unloadStep marks st).2 ↔ p ∈ st.2)) := by
  intro marks
  induction marks with
  | nil => intro st _; exact ⟨Iff.rfl, Iff.rfl⟩
  | cons m rest ih =>
    intro st hp
    have hpm : p ≠ m := fun hh => hp (hh ▸ List.mem_cons_self m rest)
    have hpr : p ∉ rest := fun hh => hp (List.mem_cons_of_mem m hh)
    show (p ∈ (unloadStep rest (if st.1.contains m then
        (st.1.filter (fun q => !(q = m)), st.2 ++ [m]) else st)).1 ↔ p ∈ st.1) ∧
      (p ∈ (unloadStep rest (if st.1.contains m then
        (st.1.filter (fun q => !(q = m)), st.2 ++ [m]) else st)).2 ↔ p ∈ st.2)
    by_cases hm : st.1.contains m = true
    · rw [if_pos hm]
      obtain ⟨h1, h2⟩ := ih (st.1.filter (fun q => !(q = m)), st.2 ++ [m]) hpr
      constructor
      · rw [h1]
        show p ∈ st.1.filter (fun q => !(q = m)) ↔ p ∈ st.1
        constructor
        · exact fun h => (List.mem_filter.mp h).1
        · intro h
          exact List.mem_filter.mpr ⟨h, by
            show (!decide (p = m)) = true
            rw [decide_eq_false hpm]
            rfl⟩
      · rw [h2]
        show p ∈ st.2 ++ [m] ↔ p ∈ st.2
        constructor
        · intro h
          rcases List.mem_append.mp h with h | h
          · exact h
          · rcases List.mem_cons.mp h with rfl | h
            · exact absurd rfl hpm
            · exact absurd h (List.not_mem_nil p)
        · exact fun h => List.mem_append.mpr (Or.inl h)
    · rw [if_neg hm]
      exact ih st hpr

/-- The load phase never removes a loaded plugin. -/
theorem loadStep_preserves (p : String) :
    ∀ (marks : List String) (st : List String × List String), p ∈ st.1 →
      p ∈ (loadStep marks st).1 := by
  intro marks
  induction marks with
  | nil => intro st h; exact h
  | cons m rest ih =>
    intro st hp
    show p ∈ (loadStep rest (if st.1.contains m then st
      else (st.1 ++ [m], st.2 ++ [m]))).1
    by_cases hm : st.1.contains m = true
    · rw [if_pos hm]; exact ih st hp
    · rw [if_neg hm]
      exact ih _ (List.mem_append.mpr (Or.inl hp))

/-- In an association list with duplicate-free keys, entries with equal
keys are equal. -/
theorem keys_nodup_eq {α β : Type} (l : List (α × β))
    (h : (l.map Prod.fst).Nodup) {e f : α × β}
    (he : e ∈ l) (hf : f ∈ l) (hfst : e.1 = f.1) : e = f := by
  induction l with
  | nil => exact absurd he (List.not_mem_nil e)
  | cons g rest ih =>
    have h2 := h
    rw [List.map_cons] at h2
    have hcons := List.nodup_cons.mp h2
    rcases List.mem_cons.mp he with rfl | he2
    · rcases List.mem_cons.mp hf with rfl | hf2
      · rfl
      · refine absurd ?_ hcons.1
        rw [hfst]
        exact List.mem_map.mpr ⟨f, hf2, rfl⟩
    · rcases List.mem_cons.mp hf with rfl | hf2
      · refine absurd ?_ hcons.1
        rw [← hfst]
        exact List.mem_map.mpr ⟨e, he2, rfl⟩
      · exact ih hcons.2 he2 hf2

/-- An update whose template and active set already match the argument
changes nothing. -/
theorem update_template_noop (s : AllocState) (t : List Char)
    (h1 : s.currentTemplate = t)
    (h2 : s.activeVariables = parse_template_variables t) :
    update_template s t = s := by
  subst h1
  have hold : (if s.currentTemplate.isEmpty then (∅ : Finset String)
      else parse_template_variables s.currentTemplate) =
      parse_template_variables s.currentTemplate := by
    by_cases ht : s.currentTemplate.isEmpty = true
    · rw [if_pos ht, List.isEmpty_iff.mp ht, parse_template_variables_nil]
    · rw [if_neg ht]
  unfold update_template
  dsimp only
  rw [hold, Finset.sdiff_self, unloadMarks_empty, loadMarks_empty, ← h2]
  rfl

/-- C9 initial state: one plugin `P` declaring variables `a` and `b`,
loaded, with the active template `{a}/{b}`. -/
def c9State : AllocState :=
  { availableVariables := [("P", ["a", "b"])]
    loadedPlugins := ["P"]
    currentTemplate := ['{', 'a', '}', '/', '{', 'b', '}']
    activeVariables := parse_template_variables ['{', 'a', '}', '/', '{', 'b', '}']
    deleteCalls := []
    initCalls := [] }

/-- C9 counterexample: updating the template from `{a}/{b}` to `{c}`
leaves plugin `P` loaded and never calls its delete hook, although the
variables `P` declares have empty intersection with the new variable
set: when the still-needed check for dropped variable `a` runs, `b` is
still in the not-yet-updated `active_variables` (and vice versa), so
`P` is never marked for unload. -/
theorem C9_counterexample :
    c9State.activeVariables = parse_template_variables c9State.currentTemplate ∧
    ("a" : String) ∈ c9State.activeVariables ∧
    ("b" : String) ∈ c9State.activeVariables ∧
    (∀ v ∈ (["a", "b"] : List String),
      v ∉ parse_template_variables ['{', 'c', '}']) ∧
    "P" ∈ c9State.loadedPlugins ∧
    (update_template c9State ['{', 'c', '}']).loadedPlugins = ["P"] ∧
    (update_template c9State ['{', 'c', '}']).deleteCalls = [] := by
  decide

/-- C9: what `update_template` actually guarantees: (i) a second call
with the same template is a no-op; (ii) the unload criterion consults
the PRE-update `active_variables`, so a loaded plugin declaring two
distinct currently-active variables stays loaded — and its delete hook
is never called — even when the new template uses none of its
variables. -/
theorem C9_update_template_semantics :
    (∀ (s : AllocState) (t : List Char),
      update_template (update_template s t) t = update_template s t) ∧
    (∀ (s : AllocState) (t : List Char) (P : String) (pv : List String),
      (P, pv) ∈ s.availableVariables →
      (s.availableVariables.map Prod.fst).Nodup →
      P ∈ s.loadedPlugins →
      (∃ v1 ∈ s.activeVariables, ∃ v2 ∈ s.activeVariables,
        v1 ≠ v2 ∧ v1 ∈ pv ∧ v2 ∈ pv) →
      s.deleteCalls = [] →
      P ∈ (update_template s t).loadedPlugins ∧
        P ∉ (update_template s t).deleteCalls) := by
  constructor
  · intro s t
    exact update_template_noop (update_template s t) t rfl rfl
  · intro s t P pv hPav hnd hPl hvv hdel
    obtain ⟨v1, hv1, v2, hv2, hne, hv1p, hv2p⟩ := hvv
    have hmark : P ∉ unloadMarks s.availableVariables
        ((if s.currentTemplate.isEmpty then (∅ : Finset String)
          else parse_template_variables s.currentTemplate) \
          parse_template_variables t) s.activeVariables := by
      intro hmem
      rcases List.mem_filterMap.mp hmem with ⟨e, hein, he⟩
      by_cases hc : ∃ v ∈ (if s.currentTemplate.isEmpty then (∅ : Finset String)
          else parse_template_variables s.currentTemplate) \
          parse_template_variables t, v ∈ e.2 ∧
          ¬∃ w ∈ s.activeVariables, w ≠ v ∧ w ∈ e.2
      · rw [if_pos hc] at he
        injection he with he
        have hepv : e = (P, pv) :=
          keys_nodup_eq s.availableVariables hnd hein hPav he
        rcases hc with ⟨v, _, _, hno⟩
        by_cases hvv1 : v = v1
        · refine hno ⟨v2, hv2, ?_, ?_⟩
          · rw [hvv1]; exact hne.symm
          · rw [hepv]; exact hv2p
        · refine hno ⟨v1, hv1, ?_, ?_⟩
          · exact fun hh => hvv1 hh.symm
          · rw [hepv]; exact hv1p
      · rw [if_neg hc] at he
        exact Option.noConfusion he
    have hu := unloadStep_not_marked P
      (unloadMarks s.availableVariables
        ((if s.currentTemplate.isEmpty then (∅ : Finset String)
          else parse_template_variables s.currentTemplate) \
          parse_template_variables t) s.activeVariables)
      (s.loadedPlugins, s.deleteCalls) hmark
    constructor
    · exact loadStep_preserves P _ _ (hu.1.mpr hPl)
    · intro hmem
      have hP2 : P ∈ s.deleteCalls := hu.2.mp hmem
      rw [hdel] at hP2
      exact absurd hP2 (List.not_mem_nil P)

/-- C9 witness: the counterexample state instantiates both parts. -/
theorem C9_update_template_semantics_witness :
    (update_template (update_template c9State ['{', 'c', '}']) ['{', 'c', '}'] =
      update_template c9State ['{', 'c', '}']) ∧
    (("P", ["a", "b"]) ∈ c9State.availableVariables ∧
     (c9State.availableVariables.map Prod.fst).Nodup ∧
     "P" ∈ c9State.loadedPlugins ∧
     (∃ v1 ∈ c9State.activeVariables, ∃ v2 ∈ c9State.activeVariables,
       v1 ≠ v2 ∧ v1 ∈ ["a", "b"] ∧ v2 ∈ ["a", "b"]) ∧
     c9State.deleteCalls = [] ∧
     ("P" ∈ (update_template c9State ['{', 'c', '}']).loadedPlugins ∧
      "P" ∉ (update_template c9State ['{', 'c', '}']).deleteCalls)) :=
  ⟨C9_update_template_semantics.1 c9State ['{', 'c', '}'],
   by decide, by decide, by decide,
   ⟨"a", by decide, "b", by decide, by decide, by decide, by decide⟩, rfl,
   C9_update_template_semantics.2 c9State ['{', 'c', '}'] "P" ["a", "b"]
     (by decide) (by decide) (by decide)
     ⟨"a", by decide, "b", by decide, by decide, by decide, by decide⟩ rfl⟩

end Movefile
